import Mathlib

/-!
TLV codec (`postfix/tlv`): a shallow embedding of `encode.go` and `readwriter.go`

The Go sources are embedded as pure Lean functions.

* A `bytes.Buffer` is the list of the bytes written to it so far; a function that
  writes to a buffer takes the buffer and returns the extended one.
* A `uint64` is a natural number below `2 ^ 64`; the narrowing conversions
  `uint8(v)`, `uint16(v)`, `uint32(v)` are written `v % 2 ^ 8`, `v % 2 ^ 16`, `v % 2 ^ 32`
  and the conversion `uint64(len)` of a length is written `len % 2 ^ 64`.
* A `reflect.Value` is the inductive type `Value`; it carries the parts of its
  `reflect.Type` that the code inspects (kind, struct name, field names, `tlv` tags).
* A run-time panic is an outcome of its own (`Res.panic`).
-/

namespace Tlv

/-! ## Buffers and fixed-width big-endian writes -/

/-- Contents of a `bytes.Buffer` (or a `[]byte`): the bytes, oldest first. -/
abbrev Buf := List Nat

/-- Model of `math.MaxUint8`. -/
def MaxUint8 : Nat := 255

/-- Model of `math.MaxUint16`. -/
def MaxUint16 : Nat := 65535

/-- Model of `math.MaxUint32`. -/
def MaxUint32 : Nat := 4294967295

/-- Model of `binary.Write(buf, binary.BigEndian, x)` for `x` of type `uint8`. -/
def writeUint8 (buf : Buf) (x : Nat) : Buf :=
  buf ++ [x % 256]

/-- Model of `binary.Write(buf, binary.BigEndian, x)` for `x` of type `uint16`
(`b[0] = byte(x >> 8); b[1] = byte(x)`). -/
def writeUint16 (buf : Buf) (x : Nat) : Buf :=
  buf ++ [x / 2 ^ 8 % 256, x % 256]

/-- Model of `binary.Write(buf, binary.BigEndian, x)` for `x` of type `uint32`. -/
def writeUint32 (buf : Buf) (x : Nat) : Buf :=
  buf ++ [x / 2 ^ 24 % 256, x / 2 ^ 16 % 256, x / 2 ^ 8 % 256, x % 256]

/-- Model of `binary.Write(buf, binary.BigEndian, x)` for `x` of type `uint64`. -/
def writeUint64 (buf : Buf) (x : Nat) : Buf :=
  buf ++ [x / 2 ^ 56 % 256, x / 2 ^ 48 % 256, x / 2 ^ 40 % 256, x / 2 ^ 32 % 256,
          x / 2 ^ 24 % 256, x / 2 ^ 16 % 256, x / 2 ^ 8 % 256, x % 256]

/-- Model of `WriteBytes(buf, v)` (encode.go:24): the Compact Width framing.
The `binary.Write` calls cannot fail on a `bytes.Buffer`, so the returned error is
always nil and only the buffer is returned. -/
def WriteBytes (buf : Buf) (v : Nat) : Buf :=
  if v > MaxUint32 then
    writeUint64 (buf ++ [0xFF]) v
  else if v > MaxUint16 then
    writeUint32 (buf ++ [0xFE]) (v % 2 ^ 32)
  else if v > MaxUint8 - 3 then
    writeUint16 (buf ++ [0xFD]) (v % 2 ^ 16)
  else
    writeUint8 buf (v % 2 ^ 8)

/-- Model of `encodeUint64(buf, v)` (encode.go:41): the Minimal Fixed Width framing. -/
def encodeUint64 (buf : Buf) (v : Nat) : Buf :=
  if v > MaxUint32 then
    writeUint64 (WriteBytes buf 8) v
  else if v > MaxUint16 then
    writeUint32 (WriteBytes buf 4) (v % 2 ^ 32)
  else if v > MaxUint8 then
    writeUint16 (WriteBytes buf 2) (v % 2 ^ 16)
  else
    writeUint8 (WriteBytes buf 1) (v % 2 ^ 8)

/-- Model of `encodeString(buf, v)` (encode.go:59); a Go string is its byte sequence. -/
def encodeString (buf : Buf) (v : List Nat) : Buf :=
  WriteBytes buf (v.length % 2 ^ 64) ++ v

/-- Model of `encodeBytes(buf, v)` (encode.go:65). -/
def encodeBytes (buf : Buf) (v : List Nat) : Buf :=
  WriteBytes buf (v.length % 2 ^ 64) ++ v

/-! ## Values, struct tags and errors -/

/-- Model of `reflect.Kind`. -/
inductive Kind where
  | Invalid | Bool | Int | Int8 | Int16 | Int32 | Int64
  | Uint | Uint8 | Uint16 | Uint32 | Uint64 | Uintptr
  | Float32 | Float64 | Complex64 | Complex128
  | Array | Chan | Func | Interface | Map | Ptr | Slice | String | Struct | RawPointer
  deriving DecidableEq, Repr

/-- Model of `reflect.Kind.String()`. -/
def kindName : Kind → String
  | .Invalid => "invalid" | .Bool => "bool" | .Int => "int" | .Int8 => "int8"
  | .Int16 => "int16" | .Int32 => "int32" | .Int64 => "int64" | .Uint => "uint"
  | .Uint8 => "uint8" | .Uint16 => "uint16" | .Uint32 => "uint32" | .Uint64 => "uint64"
  | .Uintptr => "uintptr" | .Float32 => "float32" | .Float64 => "float64"
  | .Complex64 => "complex64" | .Complex128 => "complex128" | .Array => "array"
  | .Chan => "chan" | .Func => "func" | .Interface => "interface" | .Map => "map"
  | .Ptr => "ptr" | .Slice => "slice" | .String => "string" | .Struct => "struct"
  | .RawPointer => "unsafe.Pointer"

/-- What the code reads of a `reflect.StructField`: its name and the value of
`Tag.Get("tlv")` (the empty string when the field has no `tlv` key). -/
structure FieldInfo where
  Name : String
  tlv : String
  deriving DecidableEq, Repr

/-- A Go `error` value, as far as the code creates one. -/
inductive Err where
  /-- An error made by `errors.New(msg)`. -/
  | text (msg : String)
  /-- The `*strconv.NumError` of `strconv.ParseUint` on `num` with `strconv.ErrSyntax`. -/
  | numSyntaxError (num : String)
  /-- The `*strconv.NumError` of `strconv.ParseUint` on `num` with `strconv.ErrRange`. -/
  | numRangeError (num : String)
  deriving DecidableEq, Repr

/-- Model of a `reflect.Value`. Slices carry whether they are nil (a nil slice has no
elements); a slice whose element kind is `Uint8` is `bytes`, whatever its length. -/
inductive Value where
  /-- Kind `Bool`. -/
  | bool (b : Bool)
  /-- Kind `Uint64`. -/
  | uint64 (n : Nat)
  /-- Kind `Slice` with element kind `Uint8`; `none` is the nil slice. -/
  | bytes (data : Option (List Nat))
  /-- Kind `Slice` with another element kind, the nil slice. -/
  | nilSlice
  /-- Kind `Slice` with another element kind, a non-nil slice and its elements. -/
  | slice (elems : List Value)
  /-- Kind `String`, as the byte sequence of the Go string. -/
  | string (s : List Nat)
  /-- Kind `Ptr`, the nil pointer. -/
  | nilPtr
  /-- Kind `Ptr`, a non-nil pointer and the value it points to. -/
  | ptr (elem : Value)
  /-- Kind `Struct`: the name of the struct type and the fields in declaration order. -/
  | struct (name : String) (fields : List (FieldInfo × Value))
  /-- Any other kind (`k` is none of the kinds above). -/
  | other (k : Kind)

/-- Model of `reflect.Value.Kind()`. -/
def Value.kind : Value → Kind
  | .bool _ => .Bool
  | .uint64 _ => .Uint64
  | .bytes _ => .Slice
  | .nilSlice => .Slice
  | .slice _ => .Slice
  | .string _ => .String
  | .nilPtr => .Ptr
  | .ptr _ => .Ptr
  | .struct _ _ => .Struct
  | .other k => k

deriving instance DecidableEq for Except

/-- Outcome of a call that writes to a buffer and returns an `error`: the buffer as the
call leaves it together with the nil or non-nil error, or a run-time panic. -/
inductive Res where
  | ok (buf : Buf)
  | fail (buf : Buf) (err : Err)
  | panic
  deriving DecidableEq, Repr

/-- The outcome `r` of a call on the empty buffer, seen as the outcome of the same call on
the buffer `buf`. -/
def Res.prepend (buf : Buf) : Res → Res
  | .ok b => .ok (buf ++ b)
  | .fail b err => .fail (buf ++ b) err
  | .panic => .panic

/-- Model of `strings.HasSuffix(s, suffix)`. -/
def HasSuffix (s suffix : List Char) : Bool :=
  decide (suffix.length ≤ s.length) && (s.drop (s.length - suffix.length) == suffix)

/-- Model of `strings.TrimSuffix(s, suffix)`. -/
def TrimSuffix (s suffix : List Char) : List Char :=
  if HasSuffix s suffix then s.take (s.length - suffix.length) else s

/-- The loop of `strconv.ParseUint(s, 10, 64)`: `n` is the number read so far, `s0` the
whole input (for the error value). -/
def parseUintLoop (s0 : String) : List Char → Nat → Except Err Nat
  | [], n => .ok n
  | c :: cs, n =>
    if '0'.toNat ≤ c.toNat ∧ c.toNat ≤ '9'.toNat then
      if n ≥ (2 ^ 64 - 1) / 10 + 1 then .error (.numRangeError s0)
      else if n * 10 + (c.toNat - '0'.toNat) > 2 ^ 64 - 1 then .error (.numRangeError s0)
      else parseUintLoop s0 cs (n * 10 + (c.toNat - '0'.toNat))
    else .error (.numSyntaxError s0)

/-- Model of `strconv.ParseUint(s, 10, 64)`. -/
def ParseUint (s : List Char) : Except Err Nat :=
  if s = [] then .error (.numSyntaxError (String.mk s)) else parseUintLoop (String.mk s) s 0

/-- Model of `Type(v, i)` (encode.go:71) for the field `f` of a struct type named
`structName`: the wire tag of the field. -/
def TypeOf (structName : String) (f : FieldInfo) : Except Err Nat :=
  let s := TrimSuffix f.tlv.toList [',', '-']
  if s.length = 0 then
    .error (.text ("type not found: " ++ structName ++ " " ++ f.Name))
  else
    ParseUint s

/-- Model of `optional(v, i)` (encode.go:81). -/
def optional (f : FieldInfo) : Bool :=
  HasSuffix f.tlv.toList [',', '-']

mutual
/-- Model of `zero(v)` (encode.go:85). -/
def zero : Value → Bool
  | .bool b => b == false
  | .uint64 n => n == 0
  | .nilPtr => true
  | .ptr _ => false
  | .bytes data => data.isNone
  | .nilSlice => true
  | .slice _ => false
  | .string s => s == []
  | .struct _ fields => zeroFields fields
  | .other _ => false
/-- The loop of `zero` over the fields of a struct. -/
def zeroFields : List (FieldInfo × Value) → Bool
  | [] => true
  | (_, v) :: rest => if !zero v then false else zeroFields rest
end

/-! ## The encode walker -/

/-- The end of `encodeStruct` (encode.go:166-176), given the outcome of its loop over the
fields: an error or a panic of the loop is returned with `buf` untouched, otherwise the
length of `childBuf` and then `childBuf` are written to `buf`. -/
def closeStruct (buf : Buf) : Res → Res
  | .ok childBuf => .ok (WriteBytes buf (childBuf.length % 2 ^ 64) ++ childBuf)
  | .fail _ err => .fail buf err
  | .panic => .panic

mutual
/-- Model of `encode(buf, value, valType)` (encode.go:108). The two calls of
`encodeStruct` are unfolded into its loop `encodeFields` and its end `closeStruct`;
`encode_struct` and `encode_ptr` below restate them as calls of `encodeStruct`. -/
def encode (buf : Buf) : Value → Nat → Res
  | .bool _, valType => .ok (WriteBytes (WriteBytes buf valType) 0)
  | .uint64 n, valType => .ok (encodeUint64 (WriteBytes buf valType) n)
  | .bytes data, valType => .ok (encodeBytes (WriteBytes buf valType) (data.getD []))
  | .nilSlice, _ => .ok buf
  | .slice elems, valType => encodeElems buf elems valType
  | .string s, valType => .ok (encodeString (WriteBytes buf valType) s)
  | .nilPtr, _ => .panic
  | .ptr (.struct name fields), valType =>
    closeStruct (WriteBytes buf valType) (encodeFields [] name fields)
  | .ptr _, _ => .panic
  | .struct name fields, valType =>
    closeStruct (WriteBytes buf valType) (encodeFields [] name fields)
  | .other k, valType => .fail (WriteBytes buf valType) (.text ("invalid type: " ++ kindName k))
/-- The loop of `encode` over the elements of a slice (encode.go:130). -/
def encodeElems (buf : Buf) : List Value → Nat → Res
  | [], _ => .ok buf
  | x :: rest, valType =>
    match encode buf x valType with
    | .ok buf1 => encodeElems buf1 rest valType
    | r => r
/-- The loop of `encodeStruct` over the fields, writing to `childBuf` (encode.go:159). -/
def encodeFields (childBuf : Buf) (name : String) : List (FieldInfo × Value) → Res
  | [] => .ok childBuf
  | (f, fieldValue) :: rest =>
    if optional f && zero fieldValue then
      encodeFields childBuf name rest
    else
      match TypeOf name f with
      | .error err => .fail childBuf err
      | .ok valType =>
        match encode childBuf fieldValue valType with
        | .ok childBuf1 => encodeFields childBuf1 name rest
        | r => r
end

/-- Model of `encodeStruct(buf, structValue)` (encode.go:157). `NumField` panics on a
value that is not of kind `Struct` (a pointer to something else, or the zero `Value`
that `Elem` returns for a nil pointer). -/
def encodeStruct (buf : Buf) : Value → Res
  | .struct name fields => closeStruct buf (encodeFields [] name fields)
  | _ => .panic

/-- What `Marshal` returns: the pair `(raw, err)` (a nil `raw` is the empty list), or a
run-time panic. -/
inductive MarshalResult where
  | ret (raw : Buf) (err : Option Err)
  | panic
  deriving DecidableEq, Repr

/-- Model of `Marshal(i, valType)` (encode.go:14). -/
def Marshal (i : Value) (valType : Nat) : MarshalResult :=
  match encode [] i valType with
  | .fail _ err => .ret [] (some err)
  | .ok buf => .ret buf none
  | .panic => .panic

/-! ## Reading of the wire format, as the specification words it -/

/-- The number a byte string denotes when read as a big-endian integer. -/
def beValue (bs : Buf) : Nat :=
  bs.foldl (fun acc b => acc * 256 + b) 0

/-- The byte string `bs` is the `w`-byte big-endian representation of `v`. -/
def IsBigEndian (w v : Nat) (bs : Buf) : Prop :=
  bs.length = w ∧ (∀ b ∈ bs, b < 256) ∧ beValue bs = v

/-- Read a `w`-byte big-endian integer off the front of a stream. -/
def readFixed (w : Nat) (s : Buf) : Option (Nat × Buf) :=
  if s.length < w then none else some (beValue (s.take w), s.drop w)

/-- Modelled from the spec: the Compact Width decoder of section 4.1 (the reading
side, `readTLV`, is not among the sources). The first byte is read; `0xFD`, `0xFE`,
`0xFF` trigger consumption of a 2-, 4-, 8-byte big-endian integer, any other byte is
the value itself. `none` is a truncated stream. -/
def readCompactWidth : Buf → Option (Nat × Buf)
  | [] => none
  | b :: rest =>
    if b = 0xFD then readFixed 2 rest
    else if b = 0xFE then readFixed 4 rest
    else if b = 0xFF then readFixed 8 rest
    else some (b, rest)

/-- The width the specification prescribes for an unsigned integer payload. -/
def minimalWidth (v : Nat) : Nat :=
  if v ≤ 0xFF then 1 else if v ≤ 0xFFFF then 2 else if v ≤ 0xFFFFFFFF then 4 else 8

/-! ## The wire format and the encoder's contract, as the specification words them -/

/-- The fields of a record that are written: those not both optional and zero
(encode.go:161). -/
def emitted (fields : List (FieldInfo × Value)) : List (FieldInfo × Value) :=
  fields.filter (fun p => !(optional p.1 && zero p.2))

/-- One complete wire entry: `CompactWidth(Type) ‖ CompactWidth(Length) ‖ Value`, the
Length being the number of bytes of the Value. -/
def entryBytes (t : Nat) (value : Buf) : Buf :=
  WriteBytes [] t ++ WriteBytes [] value.length ++ value

/-- The relation `Entries s es`: the byte string `s` is the concatenation of the complete wire entries
`es` (pairs of a Type and a Value), with no bytes left over. -/
inductive Entries : Buf → List (Nat × Buf) → Prop where
  | nil : Entries [] []
  | cons {t : Nat} {value rest : Buf} {es : List (Nat × Buf)} :
    t < 2 ^ 64 → value.length < 2 ^ 64 → Entries rest es →
    Entries (entryBytes t value ++ rest) ((t, value) :: es)

/-- The zero value of each kind, as `zero` tests it: false, 0, the nil slice, the empty
string, the nil pointer, a record all of whose fields are zero values. -/
inductive IsZeroValue : Value → Prop where
  | bool : IsZeroValue (.bool false)
  | uint64 : IsZeroValue (.uint64 0)
  | bytes : IsZeroValue (.bytes none)
  | nilSlice : IsZeroValue .nilSlice
  | string : IsZeroValue (.string [])
  | nilPtr : IsZeroValue .nilPtr
  | struct (name : String) (fields : List (FieldInfo × Value)) :
    (∀ p ∈ fields, IsZeroValue p.2) → IsZeroValue (.struct name fields)

mutual
/-- The number of wire entries a value is written as: one, except that a list is
written as the entries of its elements. -/
def entryCount : Value → Nat
  | .nilSlice => 0
  | .slice elems => entryCountList elems
  | _ => 1
/-- The number of wire entries the elements of a list are written as. -/
def entryCountList : List Value → Nat
  | [] => 0
  | x :: rest => entryCount x + entryCountList rest
end

mutual
/-- The value is a record, a pointer to a record, or a list of these. -/
def holdsRecords : Value → Bool
  | .struct _ _ => true
  | .ptr (.struct _ _) => true
  | .nilSlice => true
  | .slice elems => holdsRecordsList elems
  | _ => false
/-- Every element is a record, a pointer to a record, or a list of these. -/
def holdsRecordsList : List Value → Bool
  | [] => true
  | x :: rest => holdsRecords x && holdsRecordsList rest
end

/-- The relation `Nested v T w t`: while `v` is encoded under the tag `T`, `encode` is called on `w`
under the tag `t`, `w` being an element or an emitted field of `v`, at any depth. -/
inductive Nested : Value → Nat → Value → Nat → Prop where
  | elem {xs : List Value} {T : Nat} {x : Value} : x ∈ xs → Nested (.slice xs) T x T
  | field {name : String} {fs : List (FieldInfo × Value)} {T : Nat} {f : FieldInfo}
      {x : Value} {t : Nat} :
    (f, x) ∈ emitted fs → TypeOf name f = .ok t → Nested (.struct name fs) T x t
  | ptrField {name : String} {fs : List (FieldInfo × Value)} {T : Nat} {f : FieldInfo}
      {x : Value} {t : Nat} :
    (f, x) ∈ emitted fs → TypeOf name f = .ok t → Nested (.ptr (.struct name fs)) T x t
  | trans {v w u : Value} {T t s : Nat} : Nested v T w t → Nested w t u s → Nested v T u s

/-- The relation `IsPart a b`: the byte string `a` occurs in `b` as a block of consecutive bytes. -/
def IsPart (a b : Buf) : Prop :=
  ∃ pre post, b = pre ++ a ++ post

/-! ## The stream reader (readwriter.go) -/

/-- Modelled from the spec: `readTLV`, the parser of one wire entry, which the reader
calls but which is not among the sources. By sections 4.1 and 6 an entry is
`CompactWidth(Type) ‖ CompactWidth(Length) ‖ Value[Length]`; a truncated escape sequence
or a Length exceeding the remaining input is a malformed stream. The result is the pair
(Type, Value), or `none` for an error, together with the input left unread; a failed read
has run to the end of the input. -/
def readTLV (input : Buf) : Option (Nat × Buf) × Buf :=
  match readCompactWidth input with
  | none => (none, [])
  | some (t, afterType) =>
    match readCompactWidth afterType with
    | none => (none, [])
    | some (len, afterLen) =>
      if afterLen.length < len then (none, [])
      else (some (t, afterLen.take len), afterLen.drop len)

/-- Model of the struct `reader` (readwriter.go:39): the unread input of the embedded
`io.Reader` and the cached entry `t`, `v` (a nil `v` is the empty list). -/
structure reader where
  Reader : Buf
  t : Nat
  v : Buf
  deriving DecidableEq, Repr

/-- Model of `NewReader(r)` (readwriter.go:35). -/
def NewReader (r : Buf) : reader :=
  { Reader := r, t := 0, v := [] }

/-- Model of `(*reader).Peek` (readwriter.go:46), `rd` standing for `readTLV`: the tag
returned and the reader afterwards. -/
def reader.Peek (rd : Buf → Option (Nat × Buf) × Buf) (r : reader) : Nat × reader :=
  if r.t = 0 then
    match rd r.Reader with
    | (some (t, v), rest) => (t, { Reader := rest, t := t, v := v })
    | (none, rest) => (r.t, { Reader := rest, t := r.t, v := r.v })
  else
    (r.t, r)

/-- Model of `(*reader).Read` (readwriter.go:56), `rd` standing for `readTLV`: the pair
(Type, Value) returned, or `none` for a non-nil error, and the reader afterwards. -/
def reader.Read (rd : Buf → Option (Nat × Buf) × Buf) (r : reader) :
    Option (Nat × Buf) × reader :=
  if r.t = 0 then
    match rd r.Reader with
    | (res, rest) => (res, { Reader := rest, t := r.t, v := r.v })
  else
    (some (r.t, r.v), { Reader := r.Reader, t := 0, v := [] })

/-! ## The decode walker of the specification -/

/-- The schema of a record as the walkers consume it: the Go type of a value, for the
kinds the specification names (section 3). A struct type lists its fields in declaration
order, each with its name and `tlv` tag. -/
inductive Ty where
  | bool
  | uint64
  | bytes
  | string
  | slice (elem : Ty)
  | struct (name : String) (fields : List (FieldInfo × Ty))

/-- Whether a type is a list other than a byte string. -/
def Ty.isList : Ty → Bool
  | .slice _ => true
  | _ => false

mutual
/-- The zero value of a type: what a freshly built record holds (section 3). -/
def Ty.zeroValue : Ty → Value
  | .bool => .bool false
  | .uint64 => .uint64 0
  | .bytes => .bytes none
  | .string => .string []
  | .slice _ => .nilSlice
  | .struct name fields => .struct name (zeroValues fields)
/-- The zero values of the fields of a struct type. -/
def zeroValues : List (FieldInfo × Ty) → List (FieldInfo × Value)
  | [] => []
  | (f, ty) :: rest => (f, ty.zeroValue) :: zeroValues rest
end

/-- Modelled from the spec: the loop of the decode walker for a repeated field (section
4.3, the decode walker is not among the sources): "repeatedly Peek/consume entries whose
tag equals the field's tag ... until the tag differs or the stream ends". Returns the
Values of the entries consumed. The first argument bounds the number of rounds; the
walker passes a bound that the input cannot exhaust. -/
def slurp (tag : Nat) : Nat → reader → List Buf × reader
  | 0, r => ([], r)
  | fuel + 1, r =>
    match r.Peek readTLV with
    | (t, r1) =>
      if t = tag then
        match r1.Read readTLV with
        | (some (_, v), r2) =>
          match slurp tag fuel r2 with
          | (vs, r3) => (v :: vs, r3)
        | (none, r2) => ([], r2)
      else ([], r1)

/-- Decode each of the Values of a repeated field with the decoder of its element type;
the nil list when there is none. -/
def decodeElems (dec : Buf → Option Value) : List Buf → Option (List Value)
  | [] => some []
  | v :: vs =>
    match dec v, decodeElems dec vs with
    | some x, some xs => some (x :: xs)
    | _, _ => none

/-- The list value a repeated field is assigned: zero entries leave the nil list. -/
def listValue : List Value → Value
  | [] => .nilSlice
  | xs => .slice xs

mutual
/-- Modelled from the spec: the decoding of the Value of one entry by kind, mirroring
section 4.2 (section 4.3; the decode walker is not among the sources). A Boolean is true
by presence; an unsigned integer is 1, 2, 4 or 8 big-endian bytes; byte and text strings
are the Value; a nested record is decoded from its Value as an independent bounded
stream, which its fields must use up. -/
def decodeValue : Ty → Buf → Option Value
  | .bool, _ => some (.bool true)
  | .uint64, v =>
    if v.length = 1 ∨ v.length = 2 ∨ v.length = 4 ∨ v.length = 8 then
      some (.uint64 (beValue v))
    else none
  | .bytes, v => some (.bytes (some v))
  | .string, v => some (.string v)
  | .slice _, _ => none
  | .struct name fields, v =>
    match decodeFields fields name (NewReader v) with
    | some (fs, r) => if (r.Peek readTLV).1 = 0 then some (.struct name fs) else none
    | none => none
/-- Modelled from the spec: the decode walker over the fields of a record, in declaration
order (section 4.3; not among the sources), reading through `Peek` and `Read` of
readwriter.go. A repeated field takes all the next entries of its tag; another field takes
the next entry when its tag is the field's, is left at its zero value when the tag differs
and the field is optional, and is a schema mismatch otherwise. -/
def decodeFields : List (FieldInfo × Ty) → String → reader →
    Option (List (FieldInfo × Value) × reader)
  | [], _, r => some ([], r)
  | (f, .slice elem) :: rest, name, r =>
    match TypeOf name f with
    | .error _ => none
    | .ok tag =>
      match slurp tag (r.Reader.length + 2) r with
      | (vals, r1) =>
        match decodeElems (decodeValue elem) vals with
        | none => none
        | some xs =>
          match decodeFields rest name r1 with
          | some (fs, r2) => some ((f, listValue xs) :: fs, r2)
          | none => none
  | (f, ty) :: rest, name, r =>
    match TypeOf name f with
    | .error _ => none
    | .ok tag =>
      match r.Peek readTLV with
      | (t, r1) =>
        if t = tag then
          match r1.Read readTLV with
          | (some (_, v), r2) =>
            match decodeValue ty v with
            | some x =>
              match decodeFields rest name r2 with
              | some (fs, r3) => some ((f, x) :: fs, r3)
              | none => none
            | none => none
          | (none, _) => none
        else if optional f then
          match decodeFields rest name r1 with
          | some (fs, r3) => some ((f, ty.zeroValue) :: fs, r3)
          | none => none
        else none
end

/-- Modelled from the spec: decoding of the bytes `Marshal` returns for a record nested
under the tag `valType` (sections 4.3 and 6): the record is read as a non-optional field
of that tag, and no entry may remain. -/
def Unmarshal (raw : Buf) (ty : Ty) (valType : Nat) : Option Value :=
  match (NewReader raw).Peek readTLV with
  | (t, r1) =>
    if t = valType then
      match r1.Read readTLV with
      | (some (_, v), r2) =>
        if (r2.Peek readTLV).1 = 0 then decodeValue ty v else none
      | (none, _) => none
    else none

/-! ## Schemas and records on which decoding inverts encoding -/

mutual
/-- The schema conditions of the round trip: in every record type the tags of the fields
parse, are not 0 and are pairwise distinct, and no list has lists as elements. -/
def Ty.schemaOk : Ty → Bool
  | .slice elem => !elem.isList && elem.schemaOk
  | .struct name fields =>
    fieldsOk name fields && decide ((fields.map (fun p => TypeOf name p.1)).Nodup)
  | _ => true
/-- The conditions of `Ty.schemaOk` on each field of a record type named `name`. -/
def fieldsOk (name : String) : List (FieldInfo × Ty) → Bool
  | [] => true
  | (f, ty) :: rest =>
    (match TypeOf name f with
      | .ok t => t != 0
      | .error _ => false) && ty.schemaOk && fieldsOk name rest
end

mutual
/-- The test `canon ty opt v`: `v` is a value of the type `ty`, held by an optional field when
`opt` is true and by a non-optional field or a list otherwise, such that: a Boolean is
true unless the field is optional; an unsigned integer is below `2 ^ 64`; a byte string
is not nil unless the field is optional; a list is nil or has an element; and so on for
the elements of a list and for the fields of a record. -/
def canon : Ty → Bool → Value → Bool
  | .bool, opt, .bool b => opt || b
  | .uint64, _, .uint64 n => decide (n < 2 ^ 64)
  | .bytes, opt, .bytes data => opt || data.isSome
  | .string, _, .string _ => true
  | .slice _, _, .nilSlice => true
  | .slice elem, _, .slice elems => !elems.isEmpty && elems.all (fun x => canon elem false x)
  | .struct name fields, _, .struct name1 fs => decide (name = name1) && canonFields fields fs
  | _, _, _ => false
/-- The conditions of `canon` on the fields of a record, which are those of its type. -/
def canonFields : List (FieldInfo × Ty) → List (FieldInfo × Value) → Bool
  | [], [] => true
  | (f, ty) :: rest, (g, v) :: fs =>
    decide (f = g) && canon ty (optional f) v && canonFields rest fs
  | _, _ => false
end

/-- The relation `Before r s`: the reader `r` stands before the stream `s`: nothing is cached and `s`
is the unread input, or the first entry of `s` is cached and the rest of `s` is the
unread input. -/
def Before (r : reader) (s : Buf) : Prop :=
  (r.t = 0 ∧ r.Reader = s) ∨
  (r.t ≠ 0 ∧ r.t < 2 ^ 64 ∧ r.v.length < 2 ^ 64 ∧ s = entryBytes r.t r.v ++ r.Reader)

/-- The Type of the first of a list of entries, 0 when there is none. -/
def firstTag : List (Nat × Buf) → Nat
  | [] => 0
  | e :: _ => e.1

/-- The bytes `encode` writes for one entry: the Length is converted to `uint64`. -/
def frame (t : Nat) (value : Buf) : Buf :=
  WriteBytes [] t ++ WriteBytes [] (value.length % 2 ^ 64) ++ value

/-- The type of the Values of the entries of a field: the element type for a list, the
type itself otherwise. -/
def Ty.item : Ty → Ty
  | .slice elem => elem
  | ty => ty

/-- The statement of the round trip for the fields `fs` of a record of type `fts`. -/
def FieldsRoundTrip (name : String) (fts : List (FieldInfo × Ty))
    (fs : List (FieldInfo × Value)) : Prop :=
  ∃ body, encodeFields [] name fs = .ok body ∧
    (body.length < 2 ^ 64 → ∀ r, Before r body →
      ∃ r1, decodeFields fts name r = some (fs, r1) ∧ Before r1 [])

/-- The statement of the round trip for a value `x` of type `ty` under the tag `tag`. -/
def ValueRoundTrip (ty : Ty) (x : Value) (tag : Nat) : Prop :=
  ∃ val, encode [] x tag = .ok (frame tag val) ∧
    (val.length < 2 ^ 64 → decodeValue ty val = some x)

/-- A record type with every kind of field and two levels of nesting. -/
def sampleTy : Ty :=
  .struct "outer" [
    (⟨"Num", "255"⟩, .slice .uint64),
    (⟨"Text", "65535"⟩, .string),
    (⟨"Byte", "4294967295"⟩, .bytes),
    (⟨"Flag", "18446744073709551615,-"⟩, .bool),
    (⟨"In", "7"⟩, .struct "inner" [
      (⟨"Deep", "1,-"⟩, .struct "leaf" [(⟨"X", "2"⟩, .uint64)]),
      (⟨"Items", "3"⟩, .slice .bytes),
      (⟨"More", "4,-"⟩, .slice (.struct "leaf" [(⟨"X", "2"⟩, .uint64)]))])]

/-- A record of the type `sampleTy`. -/
def sampleRecord : Value :=
  .struct "outer" [
    (⟨"Num", "255"⟩, .slice [.uint64 255, .uint64 65535, .uint64 4294967295,
      .uint64 18446744073709551615]),
    (⟨"Text", "65535"⟩, .string [115, 116, 114, 105, 110, 103]),
    (⟨"Byte", "4294967295"⟩, .bytes (some [1, 2, 3])),
    (⟨"Flag", "18446744073709551615,-"⟩, .bool false),
    (⟨"In", "7"⟩, .struct "inner" [
      (⟨"Deep", "1,-"⟩, .struct "leaf" [(⟨"X", "2"⟩, .uint64 300)]),
      (⟨"Items", "3"⟩, .slice [.bytes (some []), .bytes (some [9])]),
      (⟨"More", "4,-"⟩, .nilSlice)])]

/-! ## Text strings, leaves of a record, and the record type of the test -/

/-- The bytes of a Go string holding the text `s`: its UTF-8 encoding. -/
def utf8Bytes (s : String) : List Nat :=
  (s.data.flatMap String.utf8EncodeChar).map UInt8.toNat

mutual
/-- The leaf fields reachable in a value through nested records: the value itself when it
is not a record. -/
def leaves : Value → List Value
  | .struct _ fields => leavesOfFields fields
  | .bool b => [.bool b]
  | .uint64 n => [.uint64 n]
  | .bytes data => [.bytes data]
  | .nilSlice => [.nilSlice]
  | .slice elems => [.slice elems]
  | .string s => [.string s]
  | .nilPtr => [.nilPtr]
  | .ptr elem => [.ptr elem]
  | .other k => [.other k]
/-- The leaf fields reachable in the fields of a record. -/
def leavesOfFields : List (FieldInfo × Value) → List Value
  | [] => []
  | (_, v) :: rest => leaves v ++ leavesOfFields rest
end

/-- A leaf is at the zero value of its kind: false, 0, the nil byte slice, the nil list,
the empty string, the nil pointer. -/
def IsZeroLeaf (v : Value) : Prop :=
  v = .bool false ∨ v = .uint64 0 ∨ v = .bytes none ∨ v = .nilSlice ∨ v = .string [] ∨
    v = .nilPtr

/-- A value of the Go type `[]uint64`: the nil slice or the slice of the given numbers. -/
def uint64Slice : Option (List Nat) → Value
  | none => .nilSlice
  | some xs => .slice (xs.map Value.uint64)

/-- A value of the struct type `test` of tlv_test.go:8, from the values of its fields
`Num`, `String`, `Byte`, `Bool`; the field `unexported` of kind `Uint8` has no `tlv` key
in its tag. -/
def testValue (num : Option (List Nat)) (str : List Nat) (byte : Option (List Nat))
    (flag : Bool) : Value :=
  .struct "test" [
    (⟨"Num", "255"⟩, uint64Slice num),
    (⟨"String", "65535"⟩, .string str),
    (⟨"Byte", "4294967295"⟩, .bytes byte),
    (⟨"Bool", "18446744073709551615"⟩, .bool flag),
    (⟨"unexported", ""⟩, .other .Uint8)]

/-- The value `v1` of the test (tlv_test.go:25), a pointer to a `test` struct. -/
def testV1 : Value :=
  .ptr (testValue (some [255, 65535, 4294967295, 18446744073709551615])
    [115, 116, 114, 105, 110, 103] (some [1, 2, 3]) true)

/-- The kinds for which `encode` has a branch of its own (encode.go:112-149). -/
def handledKinds : List Kind :=
  [.Bool, .Uint64, .Slice, .String, .Ptr, .Struct]

/-- The value `w` is never omitted and every call of `encode` on it returns the error
`e`. -/
def FailsWith (w : Value) (e : Err) : Prop :=
  zero w = false ∧ ∀ buf t, ∃ b, encode buf w t = .fail b e

/-! ## Theorems: the two integer framings -/

theorem WriteBytes_append (buf : Buf) (v : Nat) :
    WriteBytes buf v = buf ++ WriteBytes [] v := by
  unfold WriteBytes writeUint64 writeUint32 writeUint16 writeUint8
  split_ifs <;> simp

theorem encodeUint64_append (buf : Buf) (v : Nat) :
    encodeUint64 buf v = buf ++ encodeUint64 [] v := by
  unfold encodeUint64 writeUint64 writeUint32 writeUint16 writeUint8
  split_ifs <;> rw [WriteBytes_append] <;> simp

/-- The four shapes of a Compact Width integer, as a case split on the value. -/
theorem WriteBytes_cases (v : Nat) (hv : v < 2 ^ 64) :
    (v ≤ 0xFC ∧ WriteBytes [] v = [v]) ∨
    (0xFC < v ∧ v ≤ 0xFFFF ∧ WriteBytes [] v = [0xFD, v / 2 ^ 8 % 256, v % 256]) ∨
    (0xFFFF < v ∧ v ≤ 0xFFFFFFFF ∧ WriteBytes [] v =
      [0xFE, v / 2 ^ 24 % 256, v / 2 ^ 16 % 256, v / 2 ^ 8 % 256, v % 256]) ∨
    (0xFFFFFFFF < v ∧ WriteBytes [] v =
      [0xFF, v / 2 ^ 56 % 256, v / 2 ^ 48 % 256, v / 2 ^ 40 % 256, v / 2 ^ 32 % 256,
        v / 2 ^ 24 % 256, v / 2 ^ 16 % 256, v / 2 ^ 8 % 256, v % 256]) := by
  simp only [WriteBytes, writeUint64, writeUint32, writeUint16, writeUint8, MaxUint32, MaxUint16,
    MaxUint8]
  split_ifs with h1 h2 h3 <;>
    simp only [List.nil_append, List.cons_append, List.cons.injEq, and_true, true_and] <;>
    omega

theorem readCompactWidth_FD (a b : Nat) (s : Buf) :
    readCompactWidth (0xFD :: a :: b :: s) = some (beValue [a, b], s) := by
  simp [readCompactWidth, readFixed]

theorem readCompactWidth_FE (a b c d : Nat) (s : Buf) :
    readCompactWidth (0xFE :: a :: b :: c :: d :: s) = some (beValue [a, b, c, d], s) := by
  simp [readCompactWidth, readFixed]

theorem readCompactWidth_FF (a b c d e f g h : Nat) (s : Buf) :
    readCompactWidth (0xFF :: a :: b :: c :: d :: e :: f :: g :: h :: s) =
      some (beValue [a, b, c, d, e, f, g, h], s) := by
  simp [readCompactWidth, readFixed]

theorem readCompactWidth_WriteBytes (v : Nat) (hv : v < 2 ^ 64) (s : Buf) :
    readCompactWidth (WriteBytes [] v ++ s) = some (v, s) := by
  rcases WriteBytes_cases v hv with ⟨h, e⟩ | ⟨h, h', e⟩ | ⟨h, h', e⟩ | ⟨h, e⟩ <;> rw [e]
  · have a1 : v ≠ 253 := by omega
    have a2 : v ≠ 254 := by omega
    have a3 : v ≠ 255 := by omega
    simp [readCompactWidth, a1, a2, a3]
  · simp only [List.cons_append, List.nil_append, readCompactWidth_FD, Option.some.injEq,
      Prod.mk.injEq, and_true, beValue, List.foldl_cons, List.foldl_nil]
    omega
  · simp only [List.cons_append, List.nil_append, readCompactWidth_FE, Option.some.injEq,
      Prod.mk.injEq, and_true, beValue, List.foldl_cons, List.foldl_nil]
    omega
  · simp only [List.cons_append, List.nil_append, readCompactWidth_FF, Option.some.injEq,
      Prod.mk.injEq, and_true, beValue, List.foldl_cons, List.foldl_nil]
    omega

/-- C2. Compact Width definition: for every 64-bit unsigned `v`, `WriteBytes` appends the
single byte `v` when `v ≤ 0xFC`; `0xFD` and `v` as 2 big-endian bytes when
`0xFC < v ≤ 0xFFFF`; `0xFE` and 4 big-endian bytes when `0xFFFF < v ≤ 0xFFFFFFFF`; `0xFF`
and 8 big-endian bytes above. Hence 252, 253, 65536 and 4294967296 give the stated bytes
and the appended length is 1, 3, 5 or 9. -/
theorem C2_compact_width_definition (buf : Buf) (v : Nat) (hv : v < 2 ^ 64) :
    (v ≤ 0xFC → WriteBytes buf v = buf ++ [v]) ∧
    (0xFC < v → v ≤ 0xFFFF →
      ∃ bs, IsBigEndian 2 v bs ∧ WriteBytes buf v = buf ++ 0xFD :: bs) ∧
    (0xFFFF < v → v ≤ 0xFFFFFFFF →
      ∃ bs, IsBigEndian 4 v bs ∧ WriteBytes buf v = buf ++ 0xFE :: bs) ∧
    (0xFFFFFFFF < v →
      ∃ bs, IsBigEndian 8 v bs ∧ WriteBytes buf v = buf ++ 0xFF :: bs) ∧
    WriteBytes [] 252 = [0xFC] ∧
    WriteBytes [] 253 = [0xFD, 0x00, 0xFD] ∧
    WriteBytes [] 65536 = [0xFE, 0x00, 0x01, 0x00, 0x00] ∧
    (∃ bs, bs.length = 8 ∧ WriteBytes [] 4294967296 = 0xFF :: bs) ∧
    ((WriteBytes buf v).length = buf.length + 1 ∨ (WriteBytes buf v).length = buf.length + 3 ∨
      (WriteBytes buf v).length = buf.length + 5 ∨ (WriteBytes buf v).length = buf.length + 9) := by
  rw [WriteBytes_append buf v]
  refine ⟨?_, ?_, ?_, ?_, by decide, by decide, by decide, ⟨[0, 0, 0, 1, 0, 0, 0, 0], by decide⟩, ?_⟩
  · intro h
    rcases WriteBytes_cases v hv with ⟨_, e⟩ | ⟨h1, _⟩ | ⟨h1, _⟩ | ⟨h1, _⟩
    · rw [e]
    all_goals omega
  · intro h h'
    rcases WriteBytes_cases v hv with ⟨h1, _⟩ | ⟨_, _, e⟩ | ⟨h1, _⟩ | ⟨h1, _⟩
    · omega
    · refine ⟨[v / 2 ^ 8 % 256, v % 256], ⟨rfl, ?_, ?_⟩, by rw [e]⟩
      · intro b hb
        simp only [List.mem_cons, List.mem_singleton, List.not_mem_nil, or_false] at hb
        omega
      · simp only [beValue, List.foldl_cons, List.foldl_nil]
        omega
    all_goals omega
  · intro h h'
    rcases WriteBytes_cases v hv with ⟨h1, _⟩ | ⟨_, h1, _⟩ | ⟨_, _, e⟩ | ⟨h1, _⟩
    · omega
    · omega
    · refine ⟨[v / 2 ^ 24 % 256, v / 2 ^ 16 % 256, v / 2 ^ 8 % 256, v % 256],
        ⟨rfl, ?_, ?_⟩, by rw [e]⟩
      · intro b hb
        simp only [List.mem_cons, List.mem_singleton, List.not_mem_nil, or_false] at hb
        omega
      · simp only [beValue, List.foldl_cons, List.foldl_nil]
        omega
    · omega
  · intro h
    rcases WriteBytes_cases v hv with ⟨h1, _⟩ | ⟨_, h1, _⟩ | ⟨_, h1, _⟩ | ⟨_, e⟩
    · omega
    · omega
    · omega
    · refine ⟨[v / 2 ^ 56 % 256, v / 2 ^ 48 % 256, v / 2 ^ 40 % 256, v / 2 ^ 32 % 256,
        v / 2 ^ 24 % 256, v / 2 ^ 16 % 256, v / 2 ^ 8 % 256, v % 256], ⟨rfl, ?_, ?_⟩, by rw [e]⟩
      · intro b hb
        simp only [List.mem_cons, List.mem_singleton, List.not_mem_nil, or_false] at hb
        omega
      · simp only [beValue, List.foldl_cons, List.foldl_nil]
        omega
  · rcases WriteBytes_cases v hv with ⟨_, e⟩ | ⟨_, _, e⟩ | ⟨_, _, e⟩ | ⟨_, e⟩ <;> rw [e] <;> simp

/-- Witness of C2 at `v = 300`, a value of the two-byte range. -/
theorem C2_compact_width_definition_witness :
    (300 : Nat) < 2 ^ 64 ∧
      ∃ bs, IsBigEndian 2 300 bs ∧ WriteBytes [7] 300 = [7] ++ 0xFD :: bs :=
  ⟨by decide, (C2_compact_width_definition [7] 300 (by decide)).2.1 (by decide) (by decide)⟩

/-- C3. Compact Width is uniquely decodable: if the bytes `WriteBytes` emits for `v1`
followed by `s1` equal the bytes it emits for `v2` followed by `s2` then `v1 = v2` and
`s1 = s2`; and the decoder of spec 4.1 applied to the bytes of `v1` followed by `s1`
returns `v1` and leaves `s1`. -/
theorem C3_compact_width_unambiguous (v1 v2 : Nat) (h1 : v1 < 2 ^ 64) (h2 : v2 < 2 ^ 64)
    (s1 s2 : Buf) :
    (WriteBytes [] v1 ++ s1 = WriteBytes [] v2 ++ s2 → v1 = v2 ∧ s1 = s2) ∧
    readCompactWidth (WriteBytes [] v1 ++ s1) = some (v1, s1) := by
  refine ⟨?_, readCompactWidth_WriteBytes v1 h1 s1⟩
  intro h
  have e1 := readCompactWidth_WriteBytes v1 h1 s1
  have e2 := readCompactWidth_WriteBytes v2 h2 s2
  rw [h, e2] at e1
  simp only [Option.some.injEq, Prod.mk.injEq] at e1
  exact ⟨e1.1.symm, e1.2.symm⟩

/-- Witness of C3: the escape byte `0xFD` of 253 is not confused with a literal. -/
theorem C3_compact_width_unambiguous_witness :
    (253 : Nat) < 2 ^ 64 ∧ (252 : Nat) < 2 ^ 64 ∧
      readCompactWidth (WriteBytes [] 253 ++ [9, 9]) = some (253, [9, 9]) :=
  ⟨by decide, by decide,
    (C3_compact_width_unambiguous 253 252 (by decide) (by decide) [9, 9] [0, 253, 9, 9]).2⟩

/-- C4. Minimal Fixed Width: `encodeUint64` appends the one-byte Compact Width encoding
of `w` followed by exactly `w` bytes, where `w` is the smallest of 1, 2, 4, 8 with
`v < 2 ^ (8 w)`, and those bytes read big-endian equal `v`. -/
theorem C4_minimal_fixed_width (buf : Buf) (v : Nat) (hv : v < 2 ^ 64) :
    (∃ w bs, w = minimalWidth v ∧ (w = 1 ∨ w = 2 ∨ w = 4 ∨ w = 8) ∧ v < 2 ^ (8 * w) ∧
      (∀ u, u = 1 ∨ u = 2 ∨ u = 4 ∨ u = 8 → v < 2 ^ (8 * u) → w ≤ u) ∧
      WriteBytes [] w = [w] ∧ IsBigEndian w v bs ∧
      encodeUint64 buf v = buf ++ WriteBytes [] w ++ bs) ∧
    minimalWidth 255 = 1 ∧ minimalWidth 256 = 2 ∧ minimalWidth 65536 = 4 ∧
    minimalWidth 4294967296 = 8 ∧
    encodeUint64 [] 255 = [1, 255] ∧ encodeUint64 [] 256 = [2, 1, 0] ∧
    encodeUint64 [] 65536 = [4, 0, 1, 0, 0] ∧
    encodeUint64 [] 4294967296 = [8, 0, 0, 0, 1, 0, 0, 0, 0] := by
  refine ⟨?_, by decide, by decide, by decide, by decide, by decide, by decide, by decide,
    by decide⟩
  rw [encodeUint64_append]
  have hmin : ∀ w u : Nat, (u = 1 ∨ u = 2 ∨ u = 4 ∨ u = 8) → v < 2 ^ (8 * u) →
      (w = 1 ∨ (w = 2 ∧ 0xFF < v) ∨ (w = 4 ∧ 0xFFFF < v) ∨ (w = 8 ∧ 0xFFFFFFFF < v)) →
      w ≤ u := by
    intro w u hu hlt hw
    rcases hu with rfl | rfl | rfl | rfl <;> norm_num at hlt <;> omega
  by_cases c1 : v ≤ 0xFF
  · refine ⟨1, [v % 256], by simp [minimalWidth, c1], by simp, by norm_num; omega,
      fun u hu hlt => hmin 1 u hu hlt (by simp), by decide, ⟨rfl, ?_, ?_⟩, ?_⟩
    · intro b hb
      simp only [List.mem_singleton] at hb
      omega
    · simp only [beValue, List.foldl_cons, List.foldl_nil]
      omega
    · have : ¬ v > MaxUint32 := by simp only [MaxUint32]; omega
      have : ¬ v > MaxUint16 := by simp only [MaxUint16]; omega
      have : ¬ v > MaxUint8 := by simp only [MaxUint8]; omega
      simp [encodeUint64, writeUint8, *]
  · by_cases c2 : v ≤ 0xFFFF
    · refine ⟨2, [v / 2 ^ 8 % 256, v % 256], by simp [minimalWidth, c1, c2], by simp,
        by norm_num; omega, fun u hu hlt => hmin 2 u hu hlt (by right; left; omega), by decide,
        ⟨rfl, ?_, ?_⟩, ?_⟩
      · intro b hb
        simp only [List.mem_cons, List.mem_singleton, List.not_mem_nil, or_false] at hb
        omega
      · simp only [beValue, List.foldl_cons, List.foldl_nil]
        omega
      · have : ¬ v > MaxUint32 := by simp only [MaxUint32]; omega
        have : ¬ v > MaxUint16 := by simp only [MaxUint16]; omega
        have : v > MaxUint8 := by simp only [MaxUint8]; omega
        have e : v % 2 ^ 16 = v := by omega
        rw [encodeUint64, if_neg ‹_›, if_neg ‹_›, if_pos ‹_›, e]
        simp [writeUint16]
    · by_cases c3 : v ≤ 0xFFFFFFFF
      · refine ⟨4, [v / 2 ^ 24 % 256, v / 2 ^ 16 % 256, v / 2 ^ 8 % 256, v % 256],
          by simp [minimalWidth, c1, c2, c3], by simp, by norm_num; omega,
          fun u hu hlt => hmin 4 u hu hlt (by right; right; left; omega), by decide,
          ⟨rfl, ?_, ?_⟩, ?_⟩
        · intro b hb
          simp only [List.mem_cons, List.mem_singleton, List.not_mem_nil, or_false] at hb
          omega
        · simp only [beValue, List.foldl_cons, List.foldl_nil]
          omega
        · have : ¬ v > MaxUint32 := by simp only [MaxUint32]; omega
          have : v > MaxUint16 := by simp only [MaxUint16]; omega
          have e : v % 2 ^ 32 = v := by omega
          rw [encodeUint64, if_neg ‹_›, if_pos ‹_›, e]
          simp [writeUint32]
      · refine ⟨8, [v / 2 ^ 56 % 256, v / 2 ^ 48 % 256, v / 2 ^ 40 % 256, v / 2 ^ 32 % 256,
            v / 2 ^ 24 % 256, v / 2 ^ 16 % 256, v / 2 ^ 8 % 256, v % 256],
          by simp [minimalWidth, c1, c2, c3], by simp, by norm_num; omega,
          fun u hu hlt => hmin 8 u hu hlt (by right; right; right; omega), by decide,
          ⟨rfl, ?_, ?_⟩, ?_⟩
        · intro b hb
          simp only [List.mem_cons, List.mem_singleton, List.not_mem_nil, or_false] at hb
          omega
        · simp only [beValue, List.foldl_cons, List.foldl_nil]
          omega
        · have : v > MaxUint32 := by simp only [MaxUint32]; omega
          simp [encodeUint64, writeUint64, *]

/-- Witness of C4 at `v = 65536`, the first value of width 4. -/
theorem C4_minimal_fixed_width_witness :
    (65536 : Nat) < 2 ^ 64 ∧
    ∃ w bs, w = minimalWidth 65536 ∧ (w = 1 ∨ w = 2 ∨ w = 4 ∨ w = 8) ∧ 65536 < 2 ^ (8 * w) ∧
      (∀ u, u = 1 ∨ u = 2 ∨ u = 4 ∨ u = 8 → 65536 < 2 ^ (8 * u) → w ≤ u) ∧
      WriteBytes [] w = [w] ∧ IsBigEndian w 65536 bs ∧
      encodeUint64 [7] 65536 = [7] ++ WriteBytes [] w ++ bs :=
  ⟨by decide, (C4_minimal_fixed_width [7] 65536 (by decide)).1⟩

/-! ## Theorems: the encode walker -/

theorem encodeBytes_append (buf : Buf) (v : List Nat) :
    encodeBytes buf v = buf ++ encodeBytes [] v := by
  unfold encodeBytes
  rw [WriteBytes_append]; simp

theorem encodeString_append (buf : Buf) (v : List Nat) :
    encodeString buf v = buf ++ encodeString [] v := by
  unfold encodeString
  rw [WriteBytes_append]; simp

@[simp] theorem Res.prepend_ok (buf b : Buf) : (Res.ok b).prepend buf = .ok (buf ++ b) := rfl

@[simp] theorem Res.prepend_fail (buf b : Buf) (e : Err) :
    (Res.fail b e).prepend buf = .fail (buf ++ b) e := rfl

@[simp] theorem Res.prepend_panic (buf : Buf) : Res.panic.prepend buf = .panic := rfl

theorem closeStruct_append (buf : Buf) (r : Res) :
    closeStruct buf r = (closeStruct [] r).prepend buf := by
  cases r with
  | ok cb => simp only [closeStruct, Res.prepend_ok]; rw [WriteBytes_append]; simp
  | fail cb e => simp [closeStruct]
  | panic => rfl

theorem Res.prepend_prepend (a b : Buf) (r : Res) :
    (r.prepend b).prepend a = r.prepend (a ++ b) := by
  cases r <;> simp

mutual
theorem encode_append : ∀ (v : Value) (buf : Buf) (T : Nat),
    encode buf v T = (encode [] v T).prepend buf
  | .bool _, buf, T => by
    simp only [encode, Res.prepend_ok, Res.prepend_fail, Res.prepend_panic]
    rw [WriteBytes_append (WriteBytes buf T), WriteBytes_append buf T,
      WriteBytes_append (WriteBytes [] T) 0]
    simp
  | .uint64 n, buf, T => by
    simp only [encode, Res.prepend_ok, Res.prepend_fail, Res.prepend_panic]
    rw [encodeUint64_append (WriteBytes buf T), WriteBytes_append buf T,
      encodeUint64_append (WriteBytes [] T)]
    simp
  | .bytes d, buf, T => by
    simp only [encode, Res.prepend_ok, Res.prepend_fail, Res.prepend_panic]
    rw [encodeBytes_append (WriteBytes buf T), WriteBytes_append buf T,
      encodeBytes_append (WriteBytes [] T)]
    simp
  | .nilSlice, buf, T => by simp [encode]
  | .slice xs, buf, T => by
    simp only [encode]
    exact encodeElems_append xs buf T
  | .string s, buf, T => by
    simp only [encode, Res.prepend_ok, Res.prepend_fail, Res.prepend_panic]
    rw [encodeString_append (WriteBytes buf T), WriteBytes_append buf T,
      encodeString_append (WriteBytes [] T)]
    simp
  | .nilPtr, buf, T => by simp [encode]
  | .ptr e, buf, T => by
    cases e with
    | struct n fs =>
      simp only [encode]
      rw [closeStruct_append (WriteBytes buf T), closeStruct_append (WriteBytes [] T),
        WriteBytes_append buf T, Res.prepend_prepend]
    | _ => simp [encode]
  | .struct n fs, buf, T => by
    simp only [encode]
    rw [closeStruct_append (WriteBytes buf T), closeStruct_append (WriteBytes [] T),
      WriteBytes_append buf T, Res.prepend_prepend]
  | .other k, buf, T => by
    simp only [encode, Res.prepend_ok, Res.prepend_fail, Res.prepend_panic]
    rw [WriteBytes_append buf T]
theorem encodeElems_append : ∀ (xs : List Value) (buf : Buf) (T : Nat),
    encodeElems buf xs T = (encodeElems [] xs T).prepend buf
  | [], buf, T => by simp [encodeElems]
  | x :: rest, buf, T => by
    simp only [encodeElems]
    rw [encode_append x buf T]
    cases h : encode [] x T with
    | ok b =>
      simp only [Res.prepend_ok]
      rw [encodeElems_append rest (buf ++ b) T, encodeElems_append rest b T,
        Res.prepend_prepend]
    | fail b e => simp
    | panic => simp
end

theorem encodeFields_append (name : String) : ∀ (fs : List (FieldInfo × Value)) (cb : Buf),
    encodeFields cb name fs = (encodeFields [] name fs).prepend cb
  | [], cb => by simp [encodeFields]
  | (f, v) :: rest, cb => by
    simp only [encodeFields]
    split_ifs with h
    · exact encodeFields_append name rest cb
    · cases ht : TypeOf name f with
      | error e => simp
      | ok t =>
        simp only
        rw [encode_append v cb t]
        cases h : encode [] v t with
        | ok b =>
          simp only [Res.prepend_ok]
          rw [encodeFields_append name rest (cb ++ b), encodeFields_append name rest b,
            Res.prepend_prepend]
        | fail b e => simp
        | panic => simp

theorem encode_struct (buf : Buf) (name : String) (fields : List (FieldInfo × Value))
    (T : Nat) :
    encode buf (.struct name fields) T =
      encodeStruct (WriteBytes buf T) (.struct name fields) := by
  simp only [encode, encodeStruct]

theorem encode_ptr (buf : Buf) (e : Value) (T : Nat) :
    encode buf (.ptr e) T = encodeStruct (WriteBytes buf T) e := by
  cases e <;> simp only [encode, encodeStruct]

theorem encodeElems_ok_iff (T : Nat) : ∀ (xs : List Value) (buf out : Buf),
    encodeElems buf xs T = .ok out ↔
      ∃ outs, List.Forall₂ (fun x o => encode [] x T = .ok o) xs outs ∧
        out = buf ++ outs.flatten
  | [], buf, out => by
    simp only [encodeElems, Res.ok.injEq, List.forall₂_nil_left_iff]
    constructor
    · rintro rfl
      exact ⟨[], rfl, by simp⟩
    · rintro ⟨outs, rfl, rfl⟩
      simp
  | x :: rest, buf, out => by
    simp only [encodeElems]
    rw [encode_append x buf T]
    cases h : encode [] x T with
    | ok b =>
      simp only [Res.prepend_ok]
      rw [encodeElems_ok_iff T rest (buf ++ b) out]
      constructor
      · rintro ⟨outs, ho, rfl⟩
        exact ⟨b :: outs, List.Forall₂.cons h ho, by simp⟩
      · rintro ⟨outs, ho, rfl⟩
        cases ho with
        | cons h1 h2 =>
          rw [h] at h1
          cases h1
          exact ⟨_, h2, by simp⟩
    | fail b e =>
      simp only [Res.prepend_fail]
      constructor
      · intro h'
        cases h'
      · rintro ⟨outs, ho, _⟩
        cases ho with
        | cons h1 h2 => rw [h] at h1; cases h1
    | panic =>
      simp only [Res.prepend_panic]
      constructor
      · intro h'
        cases h'
      · rintro ⟨outs, ho, _⟩
        cases ho with
        | cons h1 h2 => rw [h] at h1; cases h1

theorem emitted_cons_skip {f : FieldInfo} {v : Value} {rest : List (FieldInfo × Value)}
    (h : (optional f && zero v) = true) : emitted ((f, v) :: rest) = emitted rest := by
  unfold emitted
  exact List.filter_cons_of_neg (by simp only [h]; decide)

theorem emitted_cons_keep {f : FieldInfo} {v : Value} {rest : List (FieldInfo × Value)}
    (h : ¬ (optional f && zero v) = true) :
    emitted ((f, v) :: rest) = (f, v) :: emitted rest := by
  unfold emitted
  exact List.filter_cons_of_pos (by
    simp only [Bool.not_eq_true] at h
    simp only [h]; decide)

theorem encodeFields_ok_iff (name : String) : ∀ (fs : List (FieldInfo × Value))
    (cb out : Buf),
    encodeFields cb name fs = .ok out ↔
      ∃ parts,
        List.Forall₂ (fun p part => ∃ t, TypeOf name p.1 = .ok t ∧ encode [] p.2 t = .ok part)
          (emitted fs) parts ∧
        out = cb ++ parts.flatten
  | [], cb, out => by
    simp only [encodeFields, emitted, List.filter_nil, Res.ok.injEq, List.forall₂_nil_left_iff]
    constructor
    · rintro rfl
      exact ⟨[], rfl, by simp⟩
    · rintro ⟨outs, rfl, rfl⟩
      simp
  | (f, v) :: rest, cb, out => by
    simp only [encodeFields]
    by_cases hskip : (optional f && zero v) = true
    · rw [if_pos hskip, encodeFields_ok_iff name rest cb out, emitted_cons_skip hskip]
    · rw [if_neg hskip, emitted_cons_keep hskip]
      cases ht : TypeOf name f with
      | error e =>
        simp only
        constructor
        · intro h'
          cases h'
        · rintro ⟨parts, hp, _⟩
          cases hp with
          | cons h1 h2 =>
            obtain ⟨t, h1, _⟩ := h1
            rw [ht] at h1
            cases h1
      | ok t =>
        simp only
        rw [encode_append v cb t]
        cases h : encode [] v t with
        | ok b =>
          simp only [Res.prepend_ok]
          rw [encodeFields_ok_iff name rest (cb ++ b) out]
          constructor
          · rintro ⟨parts, hp, rfl⟩
            exact ⟨b :: parts, List.Forall₂.cons ⟨t, ht, h⟩ hp, by simp⟩
          · rintro ⟨parts, hp, rfl⟩
            cases hp with
            | cons h1 h2 =>
              obtain ⟨t1, h1, h3⟩ := h1
              rw [ht] at h1
              cases h1
              rw [h] at h3
              cases h3
              exact ⟨_, h2, by simp⟩
        | fail b e =>
          simp only [Res.prepend_fail]
          constructor
          · intro h'
            cases h'
          · rintro ⟨parts, hp, _⟩
            cases hp with
            | cons h1 h2 =>
              obtain ⟨t1, h1, h3⟩ := h1
              rw [ht] at h1
              cases h1
              rw [h] at h3
              cases h3
        | panic =>
          simp only [Res.prepend_panic]
          constructor
          · intro h'
            cases h'
          · rintro ⟨parts, hp, _⟩
            cases hp with
            | cons h1 h2 =>
              obtain ⟨t1, h1, h3⟩ := h1
              rw [ht] at h1
              cases h1
              rw [h] at h3
              cases h3

/-- C6. Nested record framing and field order: for every record with fields `f1..fn` and
every tag `T`, `encode(R, T) = CompactWidth(T) ‖ CompactWidth(len(body)) ‖ body`, where
`body` is the concatenation, in declaration order, of `encode(fi, ti)` for exactly the
fields that are not both optional and zero (`parts` lists these encodings, each made with
the parsed tag of its field); conversely a successful encoding always has this form. -/
theorem C6_record_framing_and_order (buf : Buf) (name : String)
    (fields : List (FieldInfo × Value)) (T : Nat) :
    (∀ parts : List Buf,
      List.Forall₂ (fun p part => ∃ t, TypeOf name p.1 = .ok t ∧ encode [] p.2 t = .ok part)
        (emitted fields) parts →
      parts.flatten.length < 2 ^ 64 →
      encode buf (.struct name fields) T =
        .ok (buf ++ WriteBytes [] T ++ WriteBytes [] parts.flatten.length ++ parts.flatten)) ∧
    (∀ out, encode buf (.struct name fields) T = .ok out →
      ∃ parts : List Buf,
        List.Forall₂ (fun p part => ∃ t, TypeOf name p.1 = .ok t ∧ encode [] p.2 t = .ok part)
          (emitted fields) parts ∧
        out = buf ++ WriteBytes [] T ++ WriteBytes [] (parts.flatten.length % 2 ^ 64)
          ++ parts.flatten) := by
  constructor
  · intro parts hparts hlen
    have h := (encodeFields_ok_iff name fields [] parts.flatten).2 ⟨parts, hparts, by simp⟩
    simp only [encode, h, closeStruct]
    rw [Nat.mod_eq_of_lt hlen, WriteBytes_append (WriteBytes buf T), WriteBytes_append buf T]
  · intro out h
    simp only [encode] at h
    cases hf : encodeFields [] name fields with
    | ok cb =>
      rw [hf] at h
      simp only [closeStruct, Res.ok.injEq] at h
      obtain ⟨parts, hparts, rfl⟩ := (encodeFields_ok_iff name fields [] cb).1 hf
      refine ⟨parts, hparts, ?_⟩
      rw [← h, WriteBytes_append (WriteBytes buf T), WriteBytes_append buf T]
      simp
    | fail cb e => rw [hf] at h; cases h
    | panic => rw [hf] at h; cases h

/-- Witness of C6: a record with an omitted optional field between two emitted fields. -/
theorem C6_record_framing_and_order_witness :
    encode [] (.struct "r" [(⟨"A", "1"⟩, .uint64 5), (⟨"B", "2,-"⟩, .uint64 0),
        (⟨"C", "3"⟩, .string [104, 105])]) 9 =
      .ok ([] ++ WriteBytes [] 9 ++ WriteBytes [] [[1, 1, 5], [3, 2, 104, 105]].flatten.length
        ++ [[1, 1, 5], [3, 2, 104, 105]].flatten) :=
  (C6_record_framing_and_order [] "r" [(⟨"A", "1"⟩, .uint64 5), (⟨"B", "2,-"⟩, .uint64 0),
      (⟨"C", "3"⟩, .string [104, 105])] 9).1 [[1, 1, 5], [3, 2, 104, 105]]
    (List.Forall₂.cons ⟨1, by decide, by decide⟩
      (List.Forall₂.cons ⟨3, by decide, by decide⟩ List.Forall₂.nil))
    (by decide)

/-- C10. List repetition: for every tag `T` and every list `[x1..xn]` whose elements are
not raw bytes, `encode(list, T)` is `encode(x1, T) ‖ ... ‖ encode(xn, T)` (`outs` lists
these encodings): no enclosing entry, count or extra tag. The list `[10, 20, 30]` gives
three entries tagged `T` of Length 1 and the empty list gives zero bytes. -/
theorem C10_list_repetition (buf : Buf) (xs : List Value) (T : Nat) :
    (∀ outs : List Buf, List.Forall₂ (fun x o => encode [] x T = .ok o) xs outs →
      encode buf (.slice xs) T = .ok (buf ++ outs.flatten)) ∧
    (∀ out, encode buf (.slice xs) T = .ok out →
      ∃ outs : List Buf, List.Forall₂ (fun x o => encode [] x T = .ok o) xs outs ∧
        out = buf ++ outs.flatten) ∧
    encode buf (.slice [.uint64 10, .uint64 20, .uint64 30]) T =
      .ok (buf ++ entryBytes T [10] ++ entryBytes T [20] ++ entryBytes T [30]) ∧
    encode buf (.slice []) T = .ok buf ∧
    encode buf .nilSlice T = .ok buf := by
  refine ⟨?_, ?_, ?_, by simp [encode, encodeElems], by simp [encode]⟩
  · intro outs h
    simp only [encode]
    exact (encodeElems_ok_iff T xs buf _).2 ⟨outs, h, rfl⟩
  · intro out h
    simp only [encode] at h
    exact (encodeElems_ok_iff T xs buf out).1 h
  · have e : ∀ n : Nat, n ≤ 255 → encode [] (.uint64 n) T = .ok (entryBytes T [n]) := by
      intro n hn
      simp only [encode, entryBytes]
      rw [encodeUint64_append]
      have h1 : ¬ n > MaxUint32 := by simp only [MaxUint32]; omega
      have h2 : ¬ n > MaxUint16 := by simp only [MaxUint16]; omega
      have h3 : ¬ n > MaxUint8 := by simp only [MaxUint8]; omega
      have h4 : n % 2 ^ 8 % 256 = n := by omega
      have h5 : WriteBytes [] 1 = [1] := by decide
      simp [encodeUint64, h1, h2, h3, writeUint8, h4, h5]
      omega
    simp only [encode]
    rw [(encodeElems_ok_iff T _ buf _).2
      ⟨[entryBytes T [10], entryBytes T [20], entryBytes T [30]],
        List.Forall₂.cons (e 10 (by omega)) (List.Forall₂.cons (e 20 (by omega))
          (List.Forall₂.cons (e 30 (by omega)) List.Forall₂.nil)), rfl⟩]
    simp

/-- Witness of C10: a list of two records at tag 4. -/
theorem C10_list_repetition_witness :
    encode [9] (.slice [.struct "r" [], .bool true]) 4 = .ok ([9] ++ [[4, 0], [4, 0]].flatten) :=
  (C10_list_repetition [9] [.struct "r" [], .bool true] 4).1 [[4, 0], [4, 0]]
    (List.Forall₂.cons (by decide) (List.Forall₂.cons (by decide) List.Forall₂.nil))

/-! ## Theorems: the zero test and the omission of optional fields -/

mutual
theorem zero_iff_isZeroValue : ∀ v : Value, zero v = true ↔ IsZeroValue v
  | .bool b => by
    cases b
    · simp only [zero, beq_self_eq_true, true_iff]; exact IsZeroValue.bool
    · simp only [zero]
      constructor
      · intro h; cases h
      · intro h; cases h
  | .uint64 n => by
    simp only [zero, beq_iff_eq]
    constructor
    · rintro rfl; exact IsZeroValue.uint64
    · intro h; cases h; rfl
  | .nilPtr => by simp only [zero, true_iff]; exact IsZeroValue.nilPtr
  | .ptr e => by
    simp only [zero]
    constructor
    · intro h; cases h
    · intro h; cases h
  | .bytes d => by
    cases d with
    | none => simp only [zero, Option.isNone_none, true_iff]; exact IsZeroValue.bytes
    | some x =>
      simp only [zero, Option.isNone_some]
      constructor
      · intro h; cases h
      · intro h; cases h
  | .nilSlice => by simp only [zero, true_iff]; exact IsZeroValue.nilSlice
  | .slice xs => by
    simp only [zero]
    constructor
    · intro h; cases h
    · intro h; cases h
  | .string s => by
    simp only [zero, beq_iff_eq]
    constructor
    · rintro rfl; exact IsZeroValue.string
    · intro h; cases h; rfl
  | .struct n fs => by
    simp only [zero]
    rw [zeroFields_iff fs]
    constructor
    · exact IsZeroValue.struct n fs
    · intro h; cases h; assumption
  | .other k => by
    simp only [zero]
    constructor
    · intro h; cases h
    · intro h; cases h
theorem zeroFields_iff : ∀ fs : List (FieldInfo × Value),
    zeroFields fs = true ↔ ∀ p ∈ fs, IsZeroValue p.2
  | [] => by simp [zeroFields]
  | (f, v) :: rest => by
    simp only [zeroFields, List.mem_cons, forall_eq_or_imp]
    rw [← zero_iff_isZeroValue v, ← zeroFields_iff rest]
    cases zero v <;> simp
end

theorem encodeFields_skip (name : String) (f : FieldInfo) (v : Value)
    (hskip : (optional f && zero v) = true) (l2 : List (FieldInfo × Value)) :
    ∀ (l1 : List (FieldInfo × Value)) (cb : Buf),
      encodeFields cb name (l1 ++ (f, v) :: l2) = encodeFields cb name (l1 ++ l2)
  | [], cb => by
    simp only [List.nil_append, encodeFields, if_pos hskip]
  | (g, w) :: rest, cb => by
    simp only [List.cons_append, encodeFields]
    split_ifs with h
    · exact encodeFields_skip name f v hskip l2 rest cb
    · cases TypeOf name g with
      | error e => rfl
      | ok t =>
        simp only
        cases encode cb w t with
        | ok b => exact encodeFields_skip name f v hskip l2 rest b
        | fail b e => rfl
        | panic => rfl

/-- C7 (amended). Optional omission: a record with an optional field at its zero value,
the zero value being false, 0, the nil byte slice, the nil list, the empty string, the nil
pointer, or a nested record whose every field is recursively such a value, has the same
outcome of `encode` and of `Marshal` (bytes, or error) as the same record with that field
absent from the schema. -/
theorem C7_optional_omission (buf : Buf) (name : String) (l1 l2 : List (FieldInfo × Value))
    (f : FieldInfo) (v : Value) (T : Nat) (hopt : optional f = true) (hz : IsZeroValue v) :
    encode buf (.struct name (l1 ++ (f, v) :: l2)) T = encode buf (.struct name (l1 ++ l2)) T ∧
    Marshal (.struct name (l1 ++ (f, v) :: l2)) T = Marshal (.struct name (l1 ++ l2)) T := by
  have hskip : (optional f && zero v) = true := by
    rw [hopt, (zero_iff_isZeroValue v).2 hz]; rfl
  have h : ∀ b, encode b (.struct name (l1 ++ (f, v) :: l2)) T =
      encode b (.struct name (l1 ++ l2)) T := by
    intro b
    simp only [encode, encodeFields_skip name f v hskip l2 l1 []]
  exact ⟨h buf, by simp only [Marshal, h []]⟩

/-- Witness of C7: an optional nested record whose fields are all zero, between two fields. -/
theorem C7_optional_omission_witness :
    optional ⟨"B", "2,-"⟩ = true ∧
    IsZeroValue (.struct "n" [(⟨"X", "1"⟩, .uint64 0), (⟨"Y", "2"⟩, .bytes none)]) ∧
    Marshal (.struct "r" ([(⟨"A", "1"⟩, .uint64 5)] ++
        (⟨"B", "2,-"⟩, .struct "n" [(⟨"X", "1"⟩, .uint64 0), (⟨"Y", "2"⟩, .bytes none)]) ::
        [(⟨"C", "3"⟩, .bool true)])) 9 =
      Marshal (.struct "r" ([(⟨"A", "1"⟩, .uint64 5)] ++ [(⟨"C", "3"⟩, .bool true)])) 9 :=
  ⟨by decide, (zero_iff_isZeroValue _).1 (by decide),
    (C7_optional_omission [] "r" [(⟨"A", "1"⟩, .uint64 5)] [(⟨"C", "3"⟩, .bool true)]
      ⟨"B", "2,-"⟩ (.struct "n" [(⟨"X", "1"⟩, .uint64 0), (⟨"Y", "2"⟩, .bytes none)]) 9
      (by decide) ((zero_iff_isZeroValue _).1 (by decide))).2⟩

/-- C7 fails as stated: an optional field holding the empty byte sequence `[]byte{}` (empty
but not nil) is written as an entry of Length 0, so the record does not encode as the
record without the field does. -/
theorem C7_counterexample :
    optional ⟨"B", "1,-"⟩ = true ∧
    Marshal (.struct "s" [(⟨"B", "1,-"⟩, .bytes (some []))]) 7 = .ret [7, 2, 1, 0] none ∧
    Marshal (.struct "s" []) 7 = .ret [7, 0] none ∧
    Marshal (.struct "s" [(⟨"B", "1,-"⟩, .bytes (some []))]) 7 ≠ Marshal (.struct "s" []) 7 := by
  decide

/-- C9 (amended). Boolean wire form: for every tag `T` a Boolean true is encoded as
exactly `CompactWidth(T)` followed by the Length byte 0 and no value bytes, and a Boolean
false that is the value of an optional field contributes zero bytes to the encoding of
its record. -/
theorem C9_boolean_wire_form (buf : Buf) (T : Nat) (name : String)
    (l1 l2 : List (FieldInfo × Value)) (f : FieldInfo) (hopt : optional f = true) :
    encode buf (.bool true) T = .ok (buf ++ WriteBytes [] T ++ [0]) ∧
    encodeFields buf name (l1 ++ (f, .bool false) :: l2) = encodeFields buf name (l1 ++ l2) ∧
    encode buf (.struct name (l1 ++ (f, .bool false) :: l2)) T =
      encode buf (.struct name (l1 ++ l2)) T := by
  have hskip : (optional f && zero (.bool false)) = true := by
    rw [hopt]; rfl
  refine ⟨?_, encodeFields_skip name f _ hskip l2 l1 buf, ?_⟩
  · simp only [encode]
    rw [WriteBytes_append (WriteBytes buf T), WriteBytes_append buf T]
    rfl
  · simp only [encode, encodeFields_skip name f _ hskip l2 l1 []]

/-- Witness of C9: an optional false flag after an unsigned integer. -/
theorem C9_boolean_wire_form_witness :
    optional ⟨"F", "2,-"⟩ = true ∧
    encode [] (.struct "r" ([(⟨"A", "1"⟩, .uint64 5)] ++ (⟨"F", "2,-"⟩, .bool false) :: [])) 3 =
      encode [] (.struct "r" ([(⟨"A", "1"⟩, .uint64 5)] ++ [])) 3 :=
  ⟨by decide,
    (C9_boolean_wire_form [] 3 "r" [(⟨"A", "1"⟩, .uint64 5)] [] ⟨"F", "2,-"⟩ (by decide)).2.2⟩

/-- C9 fails as stated: a Boolean false in a field that is not optional, or as a list
element, is written as an entry (two bytes here), it does not contribute zero bytes. -/
theorem C9_counterexample :
    optional ⟨"B", "1"⟩ = false ∧
    Marshal (.struct "s" [(⟨"B", "1"⟩, .bool false)]) 7 = .ret [7, 2, 1, 0] none ∧
    Marshal (.struct "s" []) 7 = .ret [7, 0] none ∧
    Marshal (.slice [.bool false]) 7 = .ret [7, 0] none ∧
    Marshal (.slice []) 7 = .ret [] none := by
  decide

/-! ## Theorems: the bytes written are complete wire entries -/

theorem parseUintLoop_lt (s0 : String) : ∀ (cs : List Char) (n m : Nat), n < 2 ^ 64 →
    parseUintLoop s0 cs n = .ok m → m < 2 ^ 64
  | [], n, m, hn, h => by
    simp only [parseUintLoop, Except.ok.injEq] at h
    omega
  | c :: cs, n, m, hn, h => by
    simp only [parseUintLoop] at h
    split_ifs at h with h1 h2 h3
    exact parseUintLoop_lt s0 cs _ m (by omega) h

theorem TypeOf_lt (name : String) (f : FieldInfo) (t : Nat) (h : TypeOf name f = .ok t) :
    t < 2 ^ 64 := by
  simp only [TypeOf, ParseUint] at h
  split_ifs at h with h1 h2
  exact parseUintLoop_lt _ _ 0 t (by norm_num) h

theorem Entries.append {a b : Buf} {e1 e2 : List (Nat × Buf)} (h1 : Entries a e1)
    (h2 : Entries b e2) : Entries (a ++ b) (e1 ++ e2) := by
  induction h1 with
  | nil => simpa using h2
  | cons ht hl _ ih =>
    rw [List.append_assoc, List.cons_append]
    exact Entries.cons ht hl ih

theorem Entries.single {t : Nat} {value : Buf} (ht : t < 2 ^ 64) (hl : value.length < 2 ^ 64) :
    Entries (entryBytes t value) [(t, value)] := by
  have h := Entries.cons ht hl Entries.nil
  simpa using h

theorem encodeUint64_shape (n : Nat) :
    ∃ bs : Buf, bs.length < 2 ^ 64 ∧ encodeUint64 [] n = WriteBytes [] bs.length ++ bs := by
  have w1 : WriteBytes [] 1 = [1] := by decide
  have w2 : WriteBytes [] 2 = [2] := by decide
  have w4 : WriteBytes [] 4 = [4] := by decide
  have w8 : WriteBytes [] 8 = [8] := by decide
  simp only [encodeUint64, writeUint64, writeUint32, writeUint16, writeUint8]
  split_ifs
  · exact ⟨[n / 2 ^ 56 % 256, n / 2 ^ 48 % 256, n / 2 ^ 40 % 256, n / 2 ^ 32 % 256,
      n / 2 ^ 24 % 256, n / 2 ^ 16 % 256, n / 2 ^ 8 % 256, n % 256], by simp, by simp [w8]⟩
  · exact ⟨[n % 2 ^ 32 / 2 ^ 24 % 256, n % 2 ^ 32 / 2 ^ 16 % 256, n % 2 ^ 32 / 2 ^ 8 % 256,
      n % 2 ^ 32 % 256], by simp, by simp [w4]⟩
  · exact ⟨[n % 2 ^ 16 / 2 ^ 8 % 256, n % 2 ^ 16 % 256], by simp, by simp [w2]⟩
  · exact ⟨[n % 2 ^ 8 % 256], by simp, by simp [w1]⟩

theorem closeStruct_ok {buf out : Buf} {r : Res} (h : closeStruct buf r = .ok out) :
    ∃ cb, r = .ok cb ∧ out = buf ++ WriteBytes [] (cb.length % 2 ^ 64) ++ cb := by
  cases r with
  | ok cb =>
    simp only [closeStruct, Res.ok.injEq] at h
    exact ⟨cb, rfl, by rw [← h, WriteBytes_append]⟩
  | fail cb e => cases h
  | panic => cases h

/-- What a successful `encode` of a record writes after the tag. -/
theorem record_entry {T : Nat} {out cb : Buf} {es : List (Nat × Buf)} (hT : T < 2 ^ 64)
    (hlen : out.length < 2 ^ 64)
    (ho : out = WriteBytes [] T ++ WriteBytes [] (cb.length % 2 ^ 64) ++ cb)
    (hes : Entries cb es) :
    ∃ es1, Entries out es1 ∧ (∀ e ∈ es1, e.1 = T) ∧ es1.length = 1 ∧
      ∀ e ∈ es1, ∃ es2, Entries e.2 es2 := by
  have hcb : cb.length < 2 ^ 64 := by
    have := congrArg List.length ho
    simp only [List.length_append] at this
    omega
  rw [Nat.mod_eq_of_lt hcb] at ho
  refine ⟨[(T, cb)], ?_, ?_, rfl, ?_⟩
  · rw [ho]; exact Entries.single hT hcb
  · intro e he; simp only [List.mem_singleton] at he; rw [he]
  · intro e he; simp only [List.mem_singleton] at he; rw [he]; exact ⟨es, hes⟩

/-- What a successful `encode` of a byte string or text string writes. -/
theorem leaf_entry {T : Nat} {out data : Buf} (hT : T < 2 ^ 64)
    (hlen : out.length < 2 ^ 64)
    (ho : out = WriteBytes [] T ++ (WriteBytes [] (data.length % 2 ^ 64) ++ data)) :
    ∃ es1, Entries out es1 ∧ (∀ e ∈ es1, e.1 = T) ∧ es1.length = 1 := by
  have hcb : data.length < 2 ^ 64 := by
    have := congrArg List.length ho
    simp only [List.length_append] at this
    omega
  rw [Nat.mod_eq_of_lt hcb, ← List.append_assoc] at ho
  refine ⟨[(T, data)], ?_, ?_, rfl⟩
  · rw [ho]; exact Entries.single hT hcb
  · intro e he; simp only [List.mem_singleton] at he; rw [he]

mutual
theorem encode_entries : ∀ (v : Value) (T : Nat) (out : Buf), T < 2 ^ 64 →
    out.length < 2 ^ 64 → encode [] v T = .ok out →
    ∃ es, Entries out es ∧ (∀ e ∈ es, e.1 = T) ∧ es.length = entryCount v ∧
      (holdsRecords v = true → ∀ e ∈ es, ∃ es1, Entries e.2 es1)
  | .bool b, T, out, hT, hlen, h => by
    simp only [encode, Res.ok.injEq] at h
    rw [WriteBytes_append (WriteBytes [] T)] at h
    have e : WriteBytes [] T ++ WriteBytes [] 0 = entryBytes T [] := by simp [entryBytes]
    refine ⟨[(T, [])], ?_, ?_, rfl, ?_⟩
    · rw [← h, e]; exact @Entries.single T [] hT (by simp)
    · intro e he; simp only [List.mem_singleton] at he; rw [he]
    · intro hr; simp [holdsRecords] at hr
  | .uint64 n, T, out, hT, hlen, h => by
    simp only [encode, Res.ok.injEq] at h
    rw [encodeUint64_append (WriteBytes [] T)] at h
    obtain ⟨bs, hbs, e⟩ := encodeUint64_shape n
    rw [e, ← List.append_assoc] at h
    refine ⟨[(T, bs)], ?_, ?_, rfl, ?_⟩
    · rw [← h]; exact @Entries.single T bs hT hbs
    · intro e he; simp only [List.mem_singleton] at he; rw [he]
    · intro hr; simp [holdsRecords] at hr
  | .bytes d, T, out, hT, hlen, h => by
    simp only [encode, Res.ok.injEq, encodeBytes] at h
    rw [WriteBytes_append (WriteBytes [] T), List.append_assoc] at h
    obtain ⟨es, h1, h2, h3⟩ := leaf_entry hT hlen h.symm
    exact ⟨es, h1, h2, h3, by intro hr; simp [holdsRecords] at hr⟩
  | .string s, T, out, hT, hlen, h => by
    simp only [encode, Res.ok.injEq, encodeString] at h
    rw [WriteBytes_append (WriteBytes [] T), List.append_assoc] at h
    obtain ⟨es, h1, h2, h3⟩ := leaf_entry hT hlen h.symm
    exact ⟨es, h1, h2, h3, by intro hr; simp [holdsRecords] at hr⟩
  | .nilSlice, T, out, hT, hlen, h => by
    simp only [encode, Res.ok.injEq] at h
    refine ⟨[], ?_, by simp, rfl, by simp⟩
    rw [← h]; exact Entries.nil
  | .slice xs, T, out, hT, hlen, h => by
    simp only [encode] at h
    obtain ⟨es, h1, h2, h3, h4⟩ := encodeElems_entries xs T out hT hlen h
    exact ⟨es, h1, h2, by simpa only [entryCount] using h3, by simpa only [holdsRecords] using h4⟩
  | .nilPtr, T, out, hT, hlen, h => by
    simp only [encode] at h
    cases h
  | .ptr (.struct name fs), T, out, hT, hlen, h => by
    simp only [encode] at h
    obtain ⟨cb, hcb, ho⟩ := closeStruct_ok h
    have hl : cb.length < 2 ^ 64 := by
      have := congrArg List.length ho
      simp only [List.length_append] at this
      omega
    obtain ⟨es, hes⟩ := encodeFields_entries fs name cb hl hcb
    obtain ⟨es1, h1, h2, h3, h4⟩ := record_entry hT hlen ho hes
    exact ⟨es1, h1, h2, by simpa only [entryCount] using h3, fun _ => h4⟩
  | .ptr (.bool _), T, out, hT, hlen, h => by simp only [encode] at h; cases h
  | .ptr (.uint64 _), T, out, hT, hlen, h => by simp only [encode] at h; cases h
  | .ptr (.bytes _), T, out, hT, hlen, h => by simp only [encode] at h; cases h
  | .ptr .nilSlice, T, out, hT, hlen, h => by simp only [encode] at h; cases h
  | .ptr (.slice _), T, out, hT, hlen, h => by simp only [encode] at h; cases h
  | .ptr (.string _), T, out, hT, hlen, h => by simp only [encode] at h; cases h
  | .ptr .nilPtr, T, out, hT, hlen, h => by simp only [encode] at h; cases h
  | .ptr (.ptr _), T, out, hT, hlen, h => by simp only [encode] at h; cases h
  | .ptr (.other _), T, out, hT, hlen, h => by simp only [encode] at h; cases h
  | .struct name fs, T, out, hT, hlen, h => by
    simp only [encode] at h
    obtain ⟨cb, hcb, ho⟩ := closeStruct_ok h
    have hl : cb.length < 2 ^ 64 := by
      have := congrArg List.length ho
      simp only [List.length_append] at this
      omega
    obtain ⟨es, hes⟩ := encodeFields_entries fs name cb hl hcb
    obtain ⟨es1, h1, h2, h3, h4⟩ := record_entry hT hlen ho hes
    exact ⟨es1, h1, h2, by simpa only [entryCount] using h3, fun _ => h4⟩
  | .other k, T, out, hT, hlen, h => by
    simp only [encode] at h
    cases h
theorem encodeElems_entries : ∀ (xs : List Value) (T : Nat) (out : Buf), T < 2 ^ 64 →
    out.length < 2 ^ 64 → encodeElems [] xs T = .ok out →
    ∃ es, Entries out es ∧ (∀ e ∈ es, e.1 = T) ∧ es.length = entryCountList xs ∧
      (holdsRecordsList xs = true → ∀ e ∈ es, ∃ es1, Entries e.2 es1)
  | [], T, out, hT, hlen, h => by
    simp only [encodeElems, Res.ok.injEq] at h
    refine ⟨[], ?_, by simp, rfl, by simp⟩
    rw [← h]; exact Entries.nil
  | x :: rest, T, out, hT, hlen, h => by
    simp only [encodeElems] at h
    cases hx : encode [] x T with
    | ok b1 =>
      rw [hx] at h
      simp only at h
      rw [encodeElems_append rest b1 T] at h
      cases hr : encodeElems [] rest T with
      | ok b2 =>
        rw [hr] at h
        simp only [Res.prepend_ok, Res.ok.injEq] at h
        have hl := congrArg List.length h
        simp only [List.length_append] at hl
        obtain ⟨e1, a1, a2, a3, a4⟩ := encode_entries x T b1 hT (by omega) hx
        obtain ⟨e2, c1, c2, c3, c4⟩ := encodeElems_entries rest T b2 hT (by omega) hr
        refine ⟨e1 ++ e2, ?_, ?_, ?_, ?_⟩
        · rw [← h]; exact Entries.append a1 c1
        · intro e he
          rcases List.mem_append.1 he with he | he
          · exact a2 e he
          · exact c2 e he
        · simp only [List.length_append, a3, c3, entryCountList]
        · intro hrec e he
          simp only [holdsRecordsList, Bool.and_eq_true] at hrec
          rcases List.mem_append.1 he with he | he
          · exact a4 hrec.1 e he
          · exact c4 hrec.2 e he
      | fail b e => rw [hr] at h; cases h
      | panic => rw [hr] at h; cases h
    | fail b e => rw [hx] at h; cases h
    | panic => rw [hx] at h; cases h
theorem encodeFields_entries : ∀ (fs : List (FieldInfo × Value)) (name : String) (cb : Buf),
    cb.length < 2 ^ 64 → encodeFields [] name fs = .ok cb → ∃ es, Entries cb es
  | [], name, cb, hlen, h => by
    simp only [encodeFields, Res.ok.injEq] at h
    exact ⟨[], by rw [← h]; exact Entries.nil⟩
  | (f, v) :: rest, name, cb, hlen, h => by
    simp only [encodeFields] at h
    split_ifs at h with hskip
    · exact encodeFields_entries rest name cb hlen h
    · cases ht : TypeOf name f with
      | error e => rw [ht] at h; cases h
      | ok t =>
        rw [ht] at h
        simp only at h
        cases hx : encode [] v t with
        | ok b1 =>
          rw [hx] at h
          simp only at h
          rw [encodeFields_append name rest b1] at h
          cases hr : encodeFields [] name rest with
          | ok b2 =>
            rw [hr] at h
            simp only [Res.prepend_ok, Res.ok.injEq] at h
            have hl := congrArg List.length h
            simp only [List.length_append] at hl
            obtain ⟨e1, a1, _⟩ := encode_entries v t b1 (TypeOf_lt name f t ht) (by omega) hx
            obtain ⟨e2, c1⟩ := encodeFields_entries rest name b2 (by omega) hr
            exact ⟨e1 ++ e2, by rw [← h]; exact Entries.append a1 c1⟩
          | fail b e => rw [hr] at h; cases h
          | panic => rw [hr] at h; cases h
        | fail b e => rw [hx] at h; cases h
        | panic => rw [hx] at h; cases h
end

theorem IsPart.refl (a : Buf) : IsPart a a :=
  ⟨[], [], by simp⟩

theorem IsPart.trans {a b c : Buf} (h1 : IsPart a b) (h2 : IsPart b c) : IsPart a c := by
  obtain ⟨p1, q1, rfl⟩ := h1
  obtain ⟨p2, q2, rfl⟩ := h2
  exact ⟨p2 ++ p1, q1 ++ q2, by simp⟩

theorem IsPart.length_le {a b : Buf} (h : IsPart a b) : a.length ≤ b.length := by
  obtain ⟨p, q, rfl⟩ := h
  simp only [List.length_append]
  omega

theorem IsPart.of_mem_flatten : ∀ {L : List Buf} {a : Buf}, a ∈ L → IsPart a L.flatten
  | b :: L, a, h => by
    rcases List.mem_cons.1 h with rfl | h
    · exact ⟨[], L.flatten, by simp⟩
    · obtain ⟨p, q, e⟩ := IsPart.of_mem_flatten h
      exact ⟨b ++ p, q, by simp [e]⟩

theorem forall₂_mem_left {α β : Type} {R : α → β → Prop} :
    ∀ {xs : List α} {ys : List β}, List.Forall₂ R xs ys → ∀ x ∈ xs, ∃ y ∈ ys, R x y
  | _, _, .cons h1 h2, x, hx => by
    rcases List.mem_cons.1 hx with rfl | hx
    · exact ⟨_, List.mem_cons_self _ _, h1⟩
    · obtain ⟨y, hy, hr⟩ := forall₂_mem_left h2 x hx
      exact ⟨y, List.mem_cons_of_mem _ hy, hr⟩

theorem forall₂_append_left {α β : Type} {R : α → β → Prop} (b : List α) :
    ∀ (a : List α) (ys : List β), List.Forall₂ R (a ++ b) ys →
      ∃ y1 y2, List.Forall₂ R a y1 ∧ List.Forall₂ R b y2 ∧ ys = y1 ++ y2
  | [], ys, h => ⟨[], ys, List.Forall₂.nil, by simpa using h, rfl⟩
  | x :: a, ys, h => by
    cases h with
    | cons h1 h2 =>
      obtain ⟨y1, y2, a1, a2, rfl⟩ := forall₂_append_left b a _ h2
      exact ⟨_ :: y1, y2, List.Forall₂.cons h1 a1, a2, rfl⟩

/-- A nested call of `encode` succeeds when the enclosing call does, and its bytes are a
block of the bytes of the enclosing call. -/
theorem nested_encode {v w : Value} {T t : Nat} (hn : Nested v T w t) :
    ∀ out, encode [] v T = .ok out →
      ∃ out1, encode [] w t = .ok out1 ∧ IsPart out1 out ∧ (T < 2 ^ 64 → t < 2 ^ 64) := by
  induction hn with
  | elem hx =>
    intro out h
    simp only [encode] at h
    obtain ⟨outs, ho, rfl⟩ := (encodeElems_ok_iff _ _ _ _).1 h
    obtain ⟨o, hmem, hr⟩ := forall₂_mem_left ho _ hx
    exact ⟨o, hr, by simpa using IsPart.of_mem_flatten hmem, fun h => h⟩
  | field hx ht =>
    intro out h
    simp only [encode] at h
    obtain ⟨cb, hcb, rfl⟩ := closeStruct_ok h
    obtain ⟨parts, hp, rfl⟩ := (encodeFields_ok_iff _ _ _ _).1 hcb
    obtain ⟨o, hmem, t1, ht1, hr⟩ := forall₂_mem_left hp _ hx
    rw [ht] at ht1
    cases ht1
    refine ⟨o, hr, ?_, fun _ => TypeOf_lt _ _ _ ht⟩
    refine (IsPart.of_mem_flatten hmem).trans ?_
    rw [List.nil_append]
    exact ⟨_, [], (List.append_nil _).symm⟩
  | ptrField hx ht =>
    intro out h
    simp only [encode] at h
    obtain ⟨cb, hcb, rfl⟩ := closeStruct_ok h
    obtain ⟨parts, hp, rfl⟩ := (encodeFields_ok_iff _ _ _ _).1 hcb
    obtain ⟨o, hmem, t1, ht1, hr⟩ := forall₂_mem_left hp _ hx
    rw [ht] at ht1
    cases ht1
    refine ⟨o, hr, ?_, fun _ => TypeOf_lt _ _ _ ht⟩
    refine (IsPart.of_mem_flatten hmem).trans ?_
    rw [List.nil_append]
    exact ⟨_, [], (List.append_nil _).symm⟩
  | trans _ _ ih1 ih2 =>
    intro out h
    obtain ⟨o1, h1, p1, b1⟩ := ih1 out h
    obtain ⟨o2, h2, p2, b2⟩ := ih2 o1 h1
    exact ⟨o2, h2, p2.trans p1, fun hT => b2 (b1 hT)⟩

/-- C5. Wire-format well-formedness: for every value and tag `T` on which `Marshal`
succeeds, the returned bytes are a concatenation of complete wire entries
`CompactWidth(Type) ‖ CompactWidth(Length) ‖ Value` with nothing left over, each of Type
`T`; and the Value of each entry produced for a record is itself such a concatenation.
The same holds of the bytes `out` of every nested call of `encode`, at any depth, which
are a block of the returned bytes. -/
theorem C5_wire_format_well_formed (v : Value) (T : Nat) (raw : Buf) (hT : T < 2 ^ 64)
    (hlen : raw.length < 2 ^ 64) (h : Marshal v T = .ret raw none) :
    (∃ es, Entries raw es ∧ (∀ e ∈ es, e.1 = T) ∧
      (holdsRecords v = true → ∀ e ∈ es, ∃ es1, Entries e.2 es1)) ∧
    (∀ w t, Nested v T w t →
      ∃ out es, encode [] w t = .ok out ∧ IsPart out raw ∧ Entries out es ∧
        (∀ e ∈ es, e.1 = t) ∧
        (holdsRecords w = true → ∀ e ∈ es, ∃ es1, Entries e.2 es1)) := by
  have he : encode [] v T = .ok raw := by
    simp only [Marshal] at h
    cases hr : encode [] v T with
    | ok b => rw [hr] at h; simp only [MarshalResult.ret.injEq, and_true] at h; rw [h]
    | fail b e => rw [hr] at h; simp at h
    | panic => rw [hr] at h; cases h
  constructor
  · obtain ⟨es, h1, h2, _, h4⟩ := encode_entries v T raw hT hlen he
    exact ⟨es, h1, h2, h4⟩
  · intro w t hn
    obtain ⟨out, ho, hp, hb⟩ := nested_encode hn raw he
    obtain ⟨es, h1, h2, _, h4⟩ :=
      encode_entries w t out (hb hT) (lt_of_le_of_lt hp.length_le hlen) ho
    exact ⟨out, es, ho, hp, h1, h2, h4⟩

/-- Witness of C5: a record holding a list, a flag and a nested record. -/
theorem C5_wire_format_well_formed_witness :
    (9 : Nat) < 2 ^ 64 ∧
    Marshal (.struct "r" [(⟨"L", "1"⟩, .slice [.uint64 5, .uint64 300]),
      (⟨"N", "2"⟩, .struct "n" [(⟨"F", "3"⟩, .bool true)])]) 9 =
        .ret [9, 11, 1, 1, 5, 1, 2, 1, 44, 2, 2, 3, 0] none ∧
    ∃ es, Entries [9, 11, 1, 1, 5, 1, 2, 1, 44, 2, 2, 3, 0] es ∧ (∀ e ∈ es, e.1 = 9) ∧
      (holdsRecords (.struct "r" [(⟨"L", "1"⟩, .slice [.uint64 5, .uint64 300]),
        (⟨"N", "2"⟩, .struct "n" [(⟨"F", "3"⟩, .bool true)])]) = true →
        ∀ e ∈ es, ∃ es1, Entries e.2 es1) :=
  ⟨by decide, by decide,
    (C5_wire_format_well_formed _ 9 [9, 11, 1, 1, 5, 1, 2, 1, 44, 2, 2, 3, 0] (by decide)
      (by decide) (by decide)).1⟩

theorem encodeFields_split (name : String) (l2 : List (FieldInfo × Value)) :
    ∀ (l1 : List (FieldInfo × Value)) (cb : Buf),
      encodeFields [] name (l1 ++ l2) = .ok cb →
      ∃ b1 b2, encodeFields [] name l1 = .ok b1 ∧ encodeFields [] name l2 = .ok b2 ∧
        cb = b1 ++ b2 := by
  intro l1 cb h
  obtain ⟨parts, hp, rfl⟩ := (encodeFields_ok_iff name _ [] cb).1 h
  have hem : emitted (l1 ++ l2) = emitted l1 ++ emitted l2 := by
    simp only [emitted, List.filter_append]
  rw [hem] at hp
  obtain ⟨p1, p2, h1, h2, rfl⟩ := forall₂_append_left _ _ _ hp
  exact ⟨p1.flatten, p2.flatten, (encodeFields_ok_iff name l1 [] _).2 ⟨p1, h1, by simp⟩,
    (encodeFields_ok_iff name l2 [] _).2 ⟨p2, h2, by simp⟩, by simp⟩

/-- C8 (amended). A non-optional field is written at its position: for every record and
every field `f` of it that is not marked optional, whatever its value, the body of a
successful encoding is the bytes of the earlier fields, then the entries of `f`, then the
bytes of the later fields; the entries of `f` all carry its tag and there is exactly one
of them when the value is a Boolean, unsigned integer, byte string, text string, record
or pointer to a record (zero or not), and one per element when it is a list, hence none
for the empty list. -/
theorem C8_non_optional_emitted (buf : Buf) (name : String)
    (l1 l2 : List (FieldInfo × Value)) (f : FieldInfo) (v : Value) (T : Nat) (out : Buf)
    (hopt : optional f = false) (hlen : out.length < 2 ^ 64)
    (h : encode buf (.struct name (l1 ++ (f, v) :: l2)) T = .ok out) :
    ∃ t b1 e b2 es, TypeOf name f = .ok t ∧
      encodeFields [] name l1 = .ok b1 ∧ encode [] v t = .ok e ∧
      encodeFields [] name l2 = .ok b2 ∧
      out = buf ++ WriteBytes [] T ++ WriteBytes [] (b1 ++ e ++ b2).length ++ (b1 ++ e ++ b2) ∧
      Entries e es ∧ (∀ x ∈ es, x.1 = t) ∧ es.length = entryCount v ∧
      ((∀ xs, v ≠ .slice xs) → v ≠ .nilSlice → es.length = 1) := by
  rw [encode_append] at h
  cases hr : encode [] (.struct name (l1 ++ (f, v) :: l2)) T with
  | fail b e => rw [hr] at h; cases h
  | panic => rw [hr] at h; cases h
  | ok o =>
    rw [hr] at h
    simp only [Res.prepend_ok, Res.ok.injEq] at h
    simp only [encode] at hr
    obtain ⟨cb, hcb, ho⟩ := closeStruct_ok hr
    obtain ⟨b1, b2', h1, h2, hcb2⟩ := encodeFields_split name _ l1 cb hcb
    simp only [encodeFields, hopt, Bool.false_and, Bool.false_eq_true, if_false] at h2
    have hol := congrArg List.length h
    have hol2 := congrArg List.length ho
    have hol3 := congrArg List.length hcb2
    simp only [List.length_append] at hol hol2 hol3
    cases ht : TypeOf name f with
    | error e => rw [ht] at h2; cases h2
    | ok t =>
      rw [ht] at h2
      simp only at h2
      cases hx : encode [] v t with
      | fail b e => rw [hx] at h2; cases h2
      | panic => rw [hx] at h2; cases h2
      | ok e =>
        rw [hx] at h2
        simp only at h2
        rw [encodeFields_append] at h2
        cases hr2 : encodeFields [] name l2 with
        | fail b e => rw [hr2] at h2; cases h2
        | panic => rw [hr2] at h2; cases h2
        | ok b2 =>
          rw [hr2] at h2
          simp only [Res.prepend_ok, Res.ok.injEq] at h2
          have hol4 := congrArg List.length h2
          simp only [List.length_append] at hol4
          obtain ⟨es, e1, e2, e3, _⟩ :=
            encode_entries v t e (TypeOf_lt name f t ht) (by omega) hx
          refine ⟨t, b1, e, b2, es, rfl, h1, hx, rfl, ?_, e1, e2, e3, ?_⟩
          · rw [← h, ho, hcb2, ← h2, Nat.mod_eq_of_lt (by simp only [List.length_append]; omega)]
            simp
          · intro hs hn
            rw [e3]
            cases v <;> simp_all [entryCount]

/-- Witness of C8: a non-optional unsigned integer at its zero value, between two fields. -/
theorem C8_non_optional_emitted_witness :
    optional ⟨"Z", "2"⟩ = false ∧
    encode [] (.struct "r" ([(⟨"A", "1"⟩, .bool true)] ++ (⟨"Z", "2"⟩, .uint64 0) ::
      [(⟨"C", "3"⟩, .string [])])) 9 = .ok [9, 7, 1, 0, 2, 1, 0, 3, 0] ∧
    ∃ t b1 e b2 es, TypeOf "r" ⟨"Z", "2"⟩ = .ok t ∧
      encodeFields [] "r" [(⟨"A", "1"⟩, .bool true)] = .ok b1 ∧
      encode [] (.uint64 0) t = .ok e ∧
      encodeFields [] "r" [(⟨"C", "3"⟩, .string [])] = .ok b2 ∧
      [9, 7, 1, 0, 2, 1, 0, 3, 0] =
        [] ++ WriteBytes [] 9 ++ WriteBytes [] (b1 ++ e ++ b2).length ++ (b1 ++ e ++ b2) ∧
      Entries e es ∧ (∀ x ∈ es, x.1 = t) ∧ es.length = entryCount (.uint64 0) ∧
      ((∀ xs, Value.uint64 0 ≠ .slice xs) → Value.uint64 0 ≠ .nilSlice → es.length = 1) :=
  ⟨by decide, by decide,
    C8_non_optional_emitted [] "r" [(⟨"A", "1"⟩, .bool true)] [(⟨"C", "3"⟩, .string [])]
      ⟨"Z", "2"⟩ (.uint64 0) 9 [9, 7, 1, 0, 2, 1, 0, 3, 0] (by decide) (by decide) (by decide)⟩

/-- C8 fails as stated: a non-optional list field holding the empty list (nil or not) is
written as no entry at all, the body of the record is empty. -/
theorem C8_counterexample :
    optional ⟨"L", "1"⟩ = false ∧
    encodeFields [] "s" [(⟨"L", "1"⟩, .slice [])] = .ok [] ∧
    encodeFields [] "s" [(⟨"L", "1"⟩, .nilSlice)] = .ok [] ∧
    Marshal (.struct "s" [(⟨"L", "1"⟩, .slice [])]) 7 = .ret [7, 0] none ∧
    Marshal (.struct "s" [(⟨"L", "1"⟩, .nilSlice)]) 7 = .ret [7, 0] none := by
  decide

/-! ## Theorems: the reader on a stream of complete entries -/

theorem WriteBytes_length_pos (v : Nat) : 0 < (WriteBytes [] v).length := by
  simp only [WriteBytes, writeUint64, writeUint32, writeUint16, writeUint8]
  split_ifs <;> simp

theorem entryBytes_length_ge (t : Nat) (v : Buf) : 2 ≤ (entryBytes t v).length := by
  have h1 := WriteBytes_length_pos t
  have h2 := WriteBytes_length_pos v.length
  simp only [entryBytes, List.length_append]
  omega

theorem readTLV_nil : readTLV [] = (none, []) := rfl

theorem readTLV_entry (t : Nat) (v s : Buf) (ht : t < 2 ^ 64) (hv : v.length < 2 ^ 64) :
    readTLV (entryBytes t v ++ s) = (some (t, v), s) := by
  have e : entryBytes t v ++ s = WriteBytes [] t ++ (WriteBytes [] v.length ++ (v ++ s)) := by
    simp [entryBytes]
  simp only [readTLV]
  rw [e, readCompactWidth_WriteBytes t ht]
  simp only
  rw [readCompactWidth_WriteBytes v.length hv]
  simp

theorem entryBytes_inj {t1 t2 : Nat} {v1 v2 s1 s2 : Buf} (h1 : t1 < 2 ^ 64)
    (hv1 : v1.length < 2 ^ 64) (h2 : t2 < 2 ^ 64) (hv2 : v2.length < 2 ^ 64)
    (h : entryBytes t1 v1 ++ s1 = entryBytes t2 v2 ++ s2) : t1 = t2 ∧ v1 = v2 ∧ s1 = s2 := by
  have a := readTLV_entry t1 v1 s1 h1 hv1
  rw [h, readTLV_entry t2 v2 s2 h2 hv2] at a
  simp only [Prod.mk.injEq, Option.some.injEq] at a
  exact ⟨a.1.1.symm, a.1.2.symm, a.2.symm⟩

theorem Entries.count_le {s : Buf} {es : List (Nat × Buf)} (h : Entries s es) :
    2 * es.length ≤ s.length := by
  induction h with
  | nil => simp
  | @cons t value rest es _ _ _ ih =>
    have := entryBytes_length_ge t value
    simp only [List.length_cons, List.length_append]
    omega

theorem Entries.uncons {t : Nat} {v s : Buf} {es : List (Nat × Buf)} (ht : t < 2 ^ 64)
    (hv : v.length < 2 ^ 64) (h : Entries (entryBytes t v ++ s) es) :
    ∃ es1, es = (t, v) :: es1 ∧ Entries s es1 := by
  generalize hs : entryBytes t v ++ s = s0 at h
  cases h with
  | nil =>
    have := entryBytes_length_ge t v
    have := congrArg List.length hs
    simp only [List.length_append, List.length_nil] at this
    omega
  | @cons t1 v1 rest es1 h1 h2 h3 =>
    obtain ⟨rfl, rfl, rfl⟩ := entryBytes_inj ht hv h1 h2 hs
    exact ⟨es1, rfl, h3⟩

theorem Before.new (s : Buf) : Before (NewReader s) s :=
  Or.inl ⟨rfl, rfl⟩

theorem Before.count {r : reader} {s : Buf} {es : List (Nat × Buf)} (hb : Before r s)
    (he : Entries s es) : es.length ≤ r.Reader.length + 1 := by
  rcases hb with ⟨_, rfl⟩ | ⟨_, h1, h2, rfl⟩
  · have := he.count_le
    omega
  · obtain ⟨es1, rfl, h3⟩ := Entries.uncons h1 h2 he
    have := h3.count_le
    simp only [List.length_cons]
    omega

/-- A `Peek` before a stream of entries with nonzero tags returns the tag of the first
entry, 0 at the end of the stream, and leaves the reader before the same stream. -/
theorem peek_before {r : reader} {s : Buf} {es : List (Nat × Buf)} (hb : Before r s)
    (he : Entries s es) (h0 : ∀ e ∈ es, e.1 ≠ 0) :
    ∃ r1, r.Peek readTLV = (firstTag es, r1) ∧ Before r1 s := by
  cases he with
  | nil =>
    rcases hb with ⟨h1, h2⟩ | ⟨_, _, _, h4⟩
    · refine ⟨{ Reader := [], t := r.t, v := r.v }, ?_, Or.inl ⟨h1, rfl⟩⟩
      simp only [reader.Peek, h1, h2, readTLV_nil, firstTag, if_true]
    · have := entryBytes_length_ge r.t r.v
      have := congrArg List.length h4
      simp only [List.length_append, List.length_nil] at this
      omega
  | @cons t v rest es1 ht hv hrest =>
    have ht0 : t ≠ 0 := h0 (t, v) (List.mem_cons_self _ _)
    refine ⟨{ Reader := rest, t := t, v := v }, ?_, Or.inr ⟨ht0, ht, hv, rfl⟩⟩
    rcases hb with ⟨h1, h2⟩ | ⟨h1, h2, h3, h4⟩
    · simp only [reader.Peek, h1, h2, if_true, readTLV_entry t v rest ht hv, firstTag]
    · obtain ⟨e1, e2, e3⟩ := entryBytes_inj ht hv h2 h3 h4
      simp only [reader.Peek, h1, if_false, firstTag]
      cases r
      simp only at e1 e2 e3
      simp only [e1, e2, e3]

/-- A `Peek` and then a `Read` before a stream that starts with the entry `(t, v)`, `t` not 0,
return `t` and then `(t, v)`, and leave the reader before the rest of the stream with
nothing cached. -/
theorem peek_read_entry {r : reader} {t : Nat} {v s : Buf} (ht : t < 2 ^ 64) (ht0 : t ≠ 0)
    (hv : v.length < 2 ^ 64) (hb : Before r (entryBytes t v ++ s)) :
    r.Peek readTLV = (t, { Reader := s, t := t, v := v }) ∧
    ({ Reader := s, t := t, v := v } : reader).Read readTLV =
      (some (t, v), { Reader := s, t := 0, v := [] }) := by
  constructor
  · rcases hb with ⟨h1, h2⟩ | ⟨h1, h2, h3, h4⟩
    · simp only [reader.Peek, h1, h2, if_true, readTLV_entry t v s ht hv]
    · obtain ⟨e1, e2, e3⟩ := entryBytes_inj ht hv h2 h3 h4
      simp only [reader.Peek, h1, if_false]
      cases r
      simp only at e1 e2 e3
      simp only [e1, e2, e3]
  · simp only [reader.Read, ht0, if_false]

theorem frame_eq_entryBytes (t : Nat) (value : Buf) (h : value.length < 2 ^ 64) :
    frame t value = entryBytes t value := by
  simp only [frame, entryBytes, Nat.mod_eq_of_lt h]

theorem frame_length (t : Nat) (value : Buf) : value.length ≤ (frame t value).length := by
  simp only [frame, List.length_append]
  omega

theorem encodeFields_tags (name : String) : ∀ (fs : List (FieldInfo × Value)) (cb : Buf),
    cb.length < 2 ^ 64 → encodeFields [] name fs = .ok cb →
    ∃ es, Entries cb es ∧ ∀ e ∈ es, Except.ok e.1 ∈ fs.map (fun p => TypeOf name p.1)
  | [], cb, hlen, h => by
    simp only [encodeFields, Res.ok.injEq] at h
    exact ⟨[], by rw [← h]; exact Entries.nil, by simp⟩
  | (f, v) :: rest, cb, hlen, h => by
    simp only [encodeFields] at h
    split_ifs at h with hskip
    · obtain ⟨es, h1, h2⟩ := encodeFields_tags name rest cb hlen h
      exact ⟨es, h1, fun e he => List.mem_cons_of_mem _ (h2 e he)⟩
    · cases ht : TypeOf name f with
      | error e => rw [ht] at h; cases h
      | ok t =>
        rw [ht] at h
        simp only at h
        cases hx : encode [] v t with
        | ok b1 =>
          rw [hx] at h
          simp only at h
          rw [encodeFields_append name rest b1] at h
          cases hr : encodeFields [] name rest with
          | ok b2 =>
            rw [hr] at h
            simp only [Res.prepend_ok, Res.ok.injEq] at h
            have hl := congrArg List.length h
            simp only [List.length_append] at hl
            obtain ⟨e1, a1, a2, _⟩ := encode_entries v t b1 (TypeOf_lt name f t ht) (by omega) hx
            obtain ⟨e2, c1, c2⟩ := encodeFields_tags name rest b2 (by omega) hr
            refine ⟨e1 ++ e2, by rw [← h]; exact Entries.append a1 c1, ?_⟩
            intro e he
            rcases List.mem_append.1 he with he | he
            · rw [a2 e he]
              simp only [List.map_cons, List.mem_cons]
              exact Or.inl ht.symm
            · exact List.mem_cons_of_mem _ (c2 e he)
          | fail b e => rw [hr] at h; cases h
          | panic => rw [hr] at h; cases h
        | fail b e => rw [hx] at h; cases h
        | panic => rw [hx] at h; cases h

theorem entries_of_vals (tag : Nat) (ht : tag < 2 ^ 64) {s : Buf} {es : List (Nat × Buf)}
    (hs : Entries s es) : ∀ vals : List Buf, (∀ v ∈ vals, v.length < 2 ^ 64) →
    Entries ((vals.map (entryBytes tag)).flatten ++ s) (vals.map (fun v => (tag, v)) ++ es)
  | [], _ => by simpa using hs
  | v :: vals, h => by
    simp only [List.map_cons, List.flatten_cons, List.append_assoc, List.cons_append]
    exact Entries.cons ht (h v (List.mem_cons_self _ _))
      (entries_of_vals tag ht hs vals (fun w hw => h w (List.mem_cons_of_mem _ hw)))

theorem slurp_entries (tag : Nat) (ht : tag < 2 ^ 64) (ht0 : tag ≠ 0) {s : Buf}
    {es : List (Nat × Buf)} (hs : Entries s es) (h0 : ∀ e ∈ es, e.1 ≠ 0)
    (hne : firstTag es ≠ tag) :
    ∀ (vals : List Buf) (fuel : Nat) (r : reader), (∀ v ∈ vals, v.length < 2 ^ 64) →
      vals.length < fuel → Before r ((vals.map (entryBytes tag)).flatten ++ s) →
      ∃ r1, slurp tag fuel r = (vals, r1) ∧ Before r1 s
  | [], fuel, r, _, hf, hb => by
    obtain ⟨k, rfl⟩ : ∃ k, fuel = k + 1 := ⟨fuel - 1, by simp at hf; omega⟩
    simp only [List.map_nil, List.flatten_nil, List.nil_append] at hb
    obtain ⟨r1, hp, hb1⟩ := peek_before hb hs h0
    exact ⟨r1, by simp only [slurp, hp, if_neg hne], hb1⟩
  | v :: vals, fuel, r, hv, hf, hb => by
    obtain ⟨k, rfl⟩ : ∃ k, fuel = k + 1 := ⟨fuel - 1, by simp at hf; omega⟩
    simp only [List.map_cons, List.flatten_cons, List.append_assoc] at hb
    obtain ⟨hp, hr⟩ := peek_read_entry ht ht0 (hv v (List.mem_cons_self _ _)) hb
    obtain ⟨r1, h1, h2⟩ := slurp_entries tag ht ht0 hs h0 hne vals k
      { Reader := (vals.map (entryBytes tag)).flatten ++ s, t := 0, v := [] }
      (fun w hw => hv w (List.mem_cons_of_mem _ hw))
      (by simp only [List.length_cons] at hf; omega) (Or.inl ⟨rfl, rfl⟩)
    exact ⟨r1, by simp only [slurp, hp, if_true, hr, h1], h2⟩

theorem elems_round_trip (elem : Ty) (tag : Nat)
    (hA : ∀ x, canon elem false x = true → ∃ val, encode [] x tag = .ok (frame tag val) ∧
      (val.length < 2 ^ 64 → decodeValue elem val = some x)) :
    ∀ xs : List Value, xs.all (fun x => canon elem false x) = true →
      ∃ vals : List Buf,
        encodeElems [] xs tag = .ok ((vals.map (frame tag)).flatten) ∧
        ((∀ val ∈ vals, val.length < 2 ^ 64) → decodeElems (decodeValue elem) vals = some xs)
  | [], _ => ⟨[], by simp [encodeElems], fun _ => rfl⟩
  | x :: xs, h => by
    simp only [List.all_cons, Bool.and_eq_true] at h
    obtain ⟨val, h1, h2⟩ := hA x h.1
    obtain ⟨vals, h3, h4⟩ := elems_round_trip elem tag hA xs h.2
    refine ⟨val :: vals, ?_, ?_⟩
    · simp only [encodeElems, h1]
      rw [encodeElems_append, h3]
      simp
    · intro hl
      simp only [decodeElems, h2 (hl val (List.mem_cons_self _ _)),
        h4 (fun w hw => hl w (List.mem_cons_of_mem _ hw))]

theorem flatten_frames (tag : Nat) : ∀ vals : List Buf,
    ((vals.map (frame tag)).flatten).length < 2 ^ 64 →
    (∀ val ∈ vals, val.length < 2 ^ 64) ∧
      (vals.map (frame tag)).flatten = (vals.map (entryBytes tag)).flatten
  | [], _ => by simp
  | v :: vals, h => by
    simp only [List.map_cons, List.flatten_cons, List.length_append] at h
    have hv := frame_length tag v
    obtain ⟨h1, h2⟩ := flatten_frames tag vals (by omega)
    refine ⟨?_, ?_⟩
    · intro val hval
      rcases List.mem_cons.1 hval with rfl | hval
      · omega
      · exact h1 val hval
    · simp only [List.map_cons, List.flatten_cons, h2, frame_eq_entryBytes tag v (by omega)]

theorem canon_emitted (ty : Ty) (opt : Bool) (v : Value) (hc : canon ty opt v = true)
    (he : ¬ (opt && zero v) = true) : canon ty false v = true := by
  cases opt
  · exact hc
  · cases ty <;> cases v <;> simp_all [canon, zero]
    rename_i d
    cases d <;> simp_all

mutual
theorem canon_zero : ∀ (ty : Ty) (opt : Bool) (v : Value), canon ty opt v = true →
    zero v = true → v = ty.zeroValue
  | .bool, opt, v, hc, hz => by
    cases v <;> simp_all [canon, zero, Ty.zeroValue]
  | .uint64, opt, v, hc, hz => by
    cases v <;> simp_all [canon, zero, Ty.zeroValue]
  | .bytes, opt, v, hc, hz => by
    cases v <;> simp_all [canon, zero, Ty.zeroValue]
  | .string, opt, v, hc, hz => by
    cases v <;> simp_all [canon, zero, Ty.zeroValue]
  | .slice elem, opt, v, hc, hz => by
    cases v <;> simp_all [canon, zero, Ty.zeroValue]
  | .struct name fts, opt, v, hc, hz => by
    cases v with
    | struct name1 fs =>
      simp only [canon, Bool.and_eq_true, decide_eq_true_eq] at hc
      simp only [zero] at hz
      simp only [Ty.zeroValue, Value.struct.injEq]
      exact ⟨hc.1.symm, canonFields_zero fts fs hc.2 hz⟩
    | _ => simp [canon] at hc
theorem canonFields_zero : ∀ (fts : List (FieldInfo × Ty)) (fs : List (FieldInfo × Value)),
    canonFields fts fs = true → zeroFields fs = true → fs = zeroValues fts
  | [], [], _, _ => rfl
  | [], _ :: _, hc, _ => by simp [canonFields] at hc
  | _ :: _, [], hc, _ => by simp [canonFields] at hc
  | (f, ty) :: rest, (g, v) :: fs, hc, hz => by
    simp only [canonFields, Bool.and_eq_true, decide_eq_true_eq] at hc
    simp only [zeroFields] at hz
    have hzv : zero v = true := by
      cases h : zero v
      · simp [h] at hz
      · rfl
    have hzr : zeroFields fs = true := by
      simpa [hzv] using hz
    simp only [zeroValues, List.cons.injEq, Prod.mk.injEq]
    exact ⟨⟨hc.1.1.symm, canon_zero ty _ v hc.1.2 hzv⟩, canonFields_zero rest fs hc.2 hzr⟩
end

/-- The walker on a field that is not a list. -/
theorem decodeFields_plain (f : FieldInfo) (ty : Ty) (rest : List (FieldInfo × Ty))
    (name : String) (r : reader) (hl : ty.isList = false) :
    decodeFields ((f, ty) :: rest) name r =
      match TypeOf name f with
      | .error _ => none
      | .ok tag =>
        match r.Peek readTLV with
        | (t, r1) =>
          if t = tag then
            match r1.Read readTLV with
            | (some (_, v), r2) =>
              match decodeValue ty v with
              | some x =>
                match decodeFields rest name r2 with
                | some (fs, r3) => some ((f, x) :: fs, r3)
                | none => none
              | none => none
            | (none, _) => none
          else if optional f then
            match decodeFields rest name r1 with
            | some (fs, r3) => some ((f, ty.zeroValue) :: fs, r3)
            | none => none
          else none := by
  cases ty with
  | slice elem => simp [Ty.isList] at hl
  | _ => simp only [decodeFields]

theorem canonFields_tags (name : String) : ∀ (fts : List (FieldInfo × Ty))
    (fs : List (FieldInfo × Value)), canonFields fts fs = true →
    fs.map (fun p => TypeOf name p.1) = fts.map (fun p => TypeOf name p.1)
  | [], [], _ => rfl
  | [], _ :: _, hc => by simp [canonFields] at hc
  | _ :: _, [], hc => by simp [canonFields] at hc
  | (f, ty) :: rest, (g, v) :: fs, hc => by
    simp only [canonFields, Bool.and_eq_true, decide_eq_true_eq] at hc
    simp only [List.map_cons, canonFields_tags name rest fs hc.2, hc.1.1]

theorem fieldsOk_nonzero (name : String) : ∀ (fts : List (FieldInfo × Ty)),
    fieldsOk name fts = true →
    ∀ t, Except.ok t ∈ fts.map (fun p => TypeOf name p.1) → t ≠ 0
  | [], _, t, h => by simp at h
  | (f, ty) :: rest, hok, t, h => by
    simp only [fieldsOk, Bool.and_eq_true] at hok
    simp only [List.map_cons, List.mem_cons] at h
    rcases h with h | h
    · rw [← h] at hok
      simpa using hok.1.1
    · exact fieldsOk_nonzero name rest hok.2 t h

theorem item_ok (ty : Ty) (h : ty.schemaOk = true) :
    ty.item.schemaOk = true ∧ ty.item.isList = false := by
  cases ty <;> simp_all [Ty.schemaOk, Ty.item, Ty.isList]

theorem firstTag_ne {es : List (Nat × Buf)} {tag : Nat} {tags : List (Except Err Nat)}
    (ht0 : tag ≠ 0) (hnotin : Except.ok tag ∉ tags) (htags : ∀ e ∈ es, Except.ok e.1 ∈ tags) :
    firstTag es ≠ tag := by
  cases es with
  | nil => exact fun h => ht0 h.symm
  | cons e es =>
    intro h
    simp only [firstTag] at h
    exact hnotin (h ▸ htags e (List.mem_cons_self _ _))

theorem step_plain (name : String) (f : FieldInfo) (ty : Ty) (v : Value)
    (fts : List (FieldInfo × Ty)) (fs : List (FieldInfo × Value)) (tag : Nat)
    (hl : ty.isList = false) (htag : TypeOf name f = .ok tag) (ht0 : tag ≠ 0)
    (hnotin : Except.ok tag ∉ fs.map (fun p => TypeOf name p.1))
    (h0 : ∀ t, Except.ok t ∈ fs.map (fun p => TypeOf name p.1) → t ≠ 0)
    (hcan : canon ty (optional f) v = true)
    (hA : ∀ x, canon ty false x = true → ValueRoundTrip ty x tag)
    (hB : FieldsRoundTrip name fts fs) :
    FieldsRoundTrip name ((f, ty) :: fts) ((f, v) :: fs) := by
  obtain ⟨body2, he2, hd2⟩ := hB
  by_cases hskip : (optional f && zero v) = true
  · refine ⟨body2, by simp only [encodeFields, if_pos hskip, he2], ?_⟩
    intro hlen r hb
    obtain ⟨es, hes, htags⟩ := encodeFields_tags name fs body2 hlen he2
    obtain ⟨r1, hp, hb1⟩ := peek_before hb hes (fun e he => h0 e.1 (htags e he))
    have hne := firstTag_ne ht0 hnotin htags
    obtain ⟨r2, hdec, hb2⟩ := hd2 hlen r1 hb1
    simp only [Bool.and_eq_true] at hskip
    have hv := canon_zero ty _ v hcan hskip.2
    refine ⟨r2, ?_, hb2⟩
    rw [decodeFields_plain f ty fts name r hl, htag]
    simp only [hp, if_neg hne, hskip.1, if_true, hdec, hv]
  · obtain ⟨val, henc, hdec⟩ := hA v (canon_emitted ty _ v hcan hskip)
    refine ⟨frame tag val ++ body2, ?_, ?_⟩
    · simp only [encodeFields, if_neg hskip, htag, henc]
      rw [encodeFields_append, he2]
      rfl
    · intro hlen r hb
      have h1 := frame_length tag val
      simp only [List.length_append] at hlen
      have hv : val.length < 2 ^ 64 := by omega
      rw [frame_eq_entryBytes tag val hv] at hb
      obtain ⟨hp, hr⟩ := peek_read_entry (TypeOf_lt name f tag htag) ht0 hv hb
      obtain ⟨r2, hdec2, hb2⟩ := hd2 (by omega) { Reader := body2, t := 0, v := [] }
        (Or.inl ⟨rfl, rfl⟩)
      refine ⟨r2, ?_, hb2⟩
      rw [decodeFields_plain f ty fts name r hl, htag]
      simp only [hp, if_true, hr, hdec hv, hdec2]

theorem step_list (name : String) (f : FieldInfo) (elem : Ty) (v : Value)
    (fts : List (FieldInfo × Ty)) (fs : List (FieldInfo × Value)) (tag : Nat)
    (htag : TypeOf name f = .ok tag) (ht0 : tag ≠ 0)
    (hnotin : Except.ok tag ∉ fs.map (fun p => TypeOf name p.1))
    (h0 : ∀ t, Except.ok t ∈ fs.map (fun p => TypeOf name p.1) → t ≠ 0)
    (hcan : canon (.slice elem) (optional f) v = true)
    (hA : ∀ x, canon elem false x = true → ValueRoundTrip elem x tag)
    (hB : FieldsRoundTrip name fts fs) :
    FieldsRoundTrip name ((f, .slice elem) :: fts) ((f, v) :: fs) := by
  obtain ⟨body2, he2, hd2⟩ := hB
  have htl := TypeOf_lt name f tag htag
  cases v with
  | nilSlice =>
    refine ⟨body2, ?_, ?_⟩
    · simp only [encodeFields, htag, encode]
      split_ifs
      · exact he2
      · exact he2
    · intro hlen r hb
      obtain ⟨es, hes, htags⟩ := encodeFields_tags name fs body2 hlen he2
      have hne := firstTag_ne ht0 hnotin htags
      obtain ⟨r1, hs, hb1⟩ := slurp_entries tag htl ht0 hes
        (fun e he => h0 e.1 (htags e he)) hne [] (r.Reader.length + 2) r (by simp) (by simp)
        (by simpa using hb)
      obtain ⟨r2, hdec, hb2⟩ := hd2 hlen r1 hb1
      refine ⟨r2, ?_, hb2⟩
      simp only [decodeFields, htag, hs, decodeElems, hdec, listValue]
  | slice xs =>
    simp only [canon, Bool.and_eq_true, Bool.not_eq_true', List.isEmpty_eq_false] at hcan
    obtain ⟨vals, henc, hdec⟩ := elems_round_trip elem tag hA xs hcan.2
    have hskip : ¬ (optional f && zero (.slice xs)) = true := by simp [zero]
    refine ⟨(vals.map (frame tag)).flatten ++ body2, ?_, ?_⟩
    · simp only [encodeFields, if_neg hskip, htag, encode, henc]
      rw [encodeFields_append, he2]
      rfl
    · intro hlen r hb
      simp only [List.length_append] at hlen
      obtain ⟨hvals, hfl⟩ := flatten_frames tag vals (by omega)
      rw [hfl] at hb
      obtain ⟨es, hes, htags⟩ := encodeFields_tags name fs body2 (by omega) he2
      have hne := firstTag_ne ht0 hnotin htags
      have hcount := Before.count hb (entries_of_vals tag htl hes vals hvals)
      simp only [List.length_append, List.length_map] at hcount
      obtain ⟨r1, hs, hb1⟩ := slurp_entries tag htl ht0 hes
        (fun e he => h0 e.1 (htags e he)) hne vals (r.Reader.length + 2) r hvals (by omega) hb
      obtain ⟨r2, hdec2, hb2⟩ := hd2 (by omega) r1 hb1
      refine ⟨r2, ?_, hb2⟩
      simp only [decodeFields, htag, hs, hdec hvals, hdec2]
      cases xs with
      | nil => exact absurd rfl hcan.1
      | cons x xs => rfl
  | _ => simp [canon] at hcan

theorem fields_step (name : String) (f g : FieldInfo) (ty : Ty) (v : Value)
    (rest : List (FieldInfo × Ty)) (fs : List (FieldInfo × Value))
    (hok : fieldsOk name ((f, ty) :: rest) = true)
    (hnd : (((f, ty) :: rest).map (fun p => TypeOf name p.1)).Nodup)
    (hc : canonFields ((f, ty) :: rest) ((g, v) :: fs) = true)
    (hA : ∀ x tag, ty.item.schemaOk = true → ty.item.isList = false →
      canon ty.item false x = true → ValueRoundTrip ty.item x tag)
    (hB : fieldsOk name rest = true → (rest.map (fun p => TypeOf name p.1)).Nodup →
      canonFields rest fs = true → FieldsRoundTrip name rest fs) :
    FieldsRoundTrip name ((f, ty) :: rest) ((g, v) :: fs) := by
  simp only [canonFields, Bool.and_eq_true, decide_eq_true_eq] at hc
  obtain ⟨⟨rfl, hcv⟩, hcr⟩ := hc
  simp only [fieldsOk, Bool.and_eq_true] at hok
  obtain ⟨⟨htag, hty⟩, hokr⟩ := hok
  simp only [List.map_cons, List.nodup_cons] at hnd
  obtain ⟨hnotin, hndr⟩ := hnd
  have hrest := hB hokr hndr hcr
  have htags := canonFields_tags name rest fs hcr
  obtain ⟨hi1, hi2⟩ := item_ok ty hty
  cases ht : TypeOf name f with
  | error e => rw [ht] at htag; simp at htag
  | ok tag =>
    rw [ht] at htag hnotin
    have ht0 : tag ≠ 0 := by simpa using htag
    rw [← htags] at hnotin
    have h0 : ∀ t, Except.ok t ∈ fs.map (fun p => TypeOf name p.1) → t ≠ 0 := by
      rw [htags]
      exact fieldsOk_nonzero name rest hokr
    cases ty with
    | slice elem =>
      exact step_list name f elem v rest fs tag ht ht0 hnotin h0 hcv
        (fun x hx => hA x tag hi1 hi2 hx) hrest
    | bool =>
      exact step_plain name f _ v rest fs tag rfl ht ht0 hnotin h0 hcv
        (fun x hx => hA x tag hi1 hi2 hx) hrest
    | uint64 =>
      exact step_plain name f _ v rest fs tag rfl ht ht0 hnotin h0 hcv
        (fun x hx => hA x tag hi1 hi2 hx) hrest
    | bytes =>
      exact step_plain name f _ v rest fs tag rfl ht ht0 hnotin h0 hcv
        (fun x hx => hA x tag hi1 hi2 hx) hrest
    | string =>
      exact step_plain name f _ v rest fs tag rfl ht ht0 hnotin h0 hcv
        (fun x hx => hA x tag hi1 hi2 hx) hrest
    | struct n fts =>
      exact step_plain name f _ v rest fs tag rfl ht ht0 hnotin h0 hcv
        (fun x hx => hA x tag hi1 hi2 hx) hrest

theorem encodeUint64_decode (n : Nat) (hn : n < 2 ^ 64) :
    ∃ bs : Buf, (bs.length = 1 ∨ bs.length = 2 ∨ bs.length = 4 ∨ bs.length = 8) ∧
      beValue bs = n ∧ encodeUint64 [] n = WriteBytes [] bs.length ++ bs := by
  have w1 : WriteBytes [] 1 = [1] := by decide
  have w2 : WriteBytes [] 2 = [2] := by decide
  have w4 : WriteBytes [] 4 = [4] := by decide
  have w8 : WriteBytes [] 8 = [8] := by decide
  simp only [encodeUint64, writeUint64, writeUint32, writeUint16, writeUint8, MaxUint32,
    MaxUint16, MaxUint8]
  split_ifs
  · refine ⟨[n / 2 ^ 56 % 256, n / 2 ^ 48 % 256, n / 2 ^ 40 % 256, n / 2 ^ 32 % 256,
      n / 2 ^ 24 % 256, n / 2 ^ 16 % 256, n / 2 ^ 8 % 256, n % 256], by simp, ?_, by simp [w8]⟩
    simp only [beValue, List.foldl_cons, List.foldl_nil]
    omega
  · refine ⟨[n % 2 ^ 32 / 2 ^ 24 % 256, n % 2 ^ 32 / 2 ^ 16 % 256, n % 2 ^ 32 / 2 ^ 8 % 256,
      n % 2 ^ 32 % 256], by simp, ?_, by simp [w4]⟩
    simp only [beValue, List.foldl_cons, List.foldl_nil]
    omega
  · refine ⟨[n % 2 ^ 16 / 2 ^ 8 % 256, n % 2 ^ 16 % 256], by simp, ?_, by simp [w2]⟩
    simp only [beValue, List.foldl_cons, List.foldl_nil]
    omega
  · refine ⟨[n % 2 ^ 8 % 256], by simp, ?_, by simp [w1]⟩
    simp only [beValue, List.foldl_cons, List.foldl_nil]
    omega

theorem leaf_round_trip (ty : Ty) (x : Value) (tag : Nat) (hc : canon ty false x = true)
    (hl : ty.isList = false) (hs : ∀ n fts, ty ≠ .struct n fts) :
    ValueRoundTrip ty x tag := by
  cases ty with
  | bool =>
    cases x <;> simp only [canon, Bool.false_or, Bool.false_eq_true] at hc
    subst hc
    refine ⟨[], ?_, fun _ => rfl⟩
    simp only [encode, frame, List.length_nil, Nat.zero_mod, List.append_nil]
    rw [WriteBytes_append]
  | uint64 =>
    cases x <;> simp only [canon, decide_eq_true_eq, Bool.false_eq_true] at hc
    rename_i n
    obtain ⟨bs, h1, h2, h3⟩ := encodeUint64_decode n hc
    refine ⟨bs, ?_, ?_⟩
    · simp only [encode, frame]
      rw [encodeUint64_append, h3, Nat.mod_eq_of_lt (by omega)]
      simp
    · intro _
      simp only [decodeValue, h1, if_true, h2]
  | bytes =>
    cases x <;> simp only [canon, Bool.false_or, Bool.false_eq_true] at hc
    rename_i d
    cases d with
    | none => simp at hc
    | some d =>
      refine ⟨d, ?_, fun _ => rfl⟩
      simp only [encode, frame, encodeBytes, Option.getD_some]
      rw [WriteBytes_append]
  | string =>
    cases x <;> simp only [canon, Bool.false_eq_true] at hc
    rename_i s
    refine ⟨s, ?_, fun _ => rfl⟩
    simp only [encode, frame, encodeString]
    rw [WriteBytes_append]
  | slice elem => simp [Ty.isList] at hl
  | struct n fts => exact absurd rfl (hs n fts)

theorem record_round_trip (name : String) (fts : List (FieldInfo × Ty)) (x : Value)
    (tag : Nat) (hc : canon (.struct name fts) false x = true)
    (hB : ∀ fs, canonFields fts fs = true → FieldsRoundTrip name fts fs) :
    ValueRoundTrip (.struct name fts) x tag := by
  cases x with
  | struct name1 fs =>
    simp only [canon, Bool.and_eq_true, decide_eq_true_eq] at hc
    obtain ⟨rfl, hcf⟩ := hc
    obtain ⟨body, he, hd⟩ := hB fs hcf
    refine ⟨body, ?_, ?_⟩
    · simp only [encode, he, closeStruct, frame]
      rw [WriteBytes_append (WriteBytes [] tag)]
    · intro hlen
      obtain ⟨r1, h1, h2⟩ := hd hlen (NewReader body) (Before.new body)
      obtain ⟨r2, h3, _⟩ := peek_before h2 Entries.nil (by simp)
      simp only [decodeValue, h1, h3, firstTag, if_true]
  | _ => simp [canon] at hc

mutual
theorem value_round_trip : ∀ (ty : Ty) (x : Value) (tag : Nat), ty.schemaOk = true →
    ty.isList = false → canon ty false x = true → ValueRoundTrip ty x tag
  | .bool, x, tag, _, hl, hc => leaf_round_trip .bool x tag hc hl (by simp)
  | .uint64, x, tag, _, hl, hc => leaf_round_trip .uint64 x tag hc hl (by simp)
  | .bytes, x, tag, _, hl, hc => leaf_round_trip .bytes x tag hc hl (by simp)
  | .string, x, tag, _, hl, hc => leaf_round_trip .string x tag hc hl (by simp)
  | .slice elem, x, tag, _, hl, hc => leaf_round_trip (.slice elem) x tag hc hl (by simp)
  | .struct name fts, x, tag, hs, _, hc =>
    record_round_trip name fts x tag hc (fun fs hcf =>
      fields_round_trip fts name fs
        (by simp only [Ty.schemaOk, Bool.and_eq_true, decide_eq_true_eq] at hs; exact hs.1)
        (by simp only [Ty.schemaOk, Bool.and_eq_true, decide_eq_true_eq] at hs; exact hs.2)
        hcf)
theorem fields_round_trip : ∀ (fts : List (FieldInfo × Ty)) (name : String)
    (fs : List (FieldInfo × Value)), fieldsOk name fts = true →
    (fts.map (fun p => TypeOf name p.1)).Nodup → canonFields fts fs = true →
    FieldsRoundTrip name fts fs
  | [], _, [], _, _, _ => ⟨[], rfl, fun _ r hb => ⟨r, rfl, hb⟩⟩
  | [], _, _ :: _, _, _, hc => by simp [canonFields] at hc
  | _ :: _, _, [], _, _, hc => by simp [canonFields] at hc
  | (f, .bool) :: rest, name, (g, v) :: fs, hok, hnd, hc =>
    fields_step name f g .bool v rest fs hok hnd hc
      (fun x tag h1 h2 h3 => value_round_trip .bool x tag h1 h2 h3)
      (fields_round_trip rest name fs)
  | (f, .uint64) :: rest, name, (g, v) :: fs, hok, hnd, hc =>
    fields_step name f g .uint64 v rest fs hok hnd hc
      (fun x tag h1 h2 h3 => value_round_trip .uint64 x tag h1 h2 h3)
      (fields_round_trip rest name fs)
  | (f, .bytes) :: rest, name, (g, v) :: fs, hok, hnd, hc =>
    fields_step name f g .bytes v rest fs hok hnd hc
      (fun x tag h1 h2 h3 => value_round_trip .bytes x tag h1 h2 h3)
      (fields_round_trip rest name fs)
  | (f, .string) :: rest, name, (g, v) :: fs, hok, hnd, hc =>
    fields_step name f g .string v rest fs hok hnd hc
      (fun x tag h1 h2 h3 => value_round_trip .string x tag h1 h2 h3)
      (fields_round_trip rest name fs)
  | (f, .slice elem) :: rest, name, (g, v) :: fs, hok, hnd, hc =>
    fields_step name f g (.slice elem) v rest fs hok hnd hc
      (fun x tag h1 h2 h3 => value_round_trip elem x tag h1 h2 h3)
      (fields_round_trip rest name fs)
  | (f, .struct n fts) :: rest, name, (g, v) :: fs, hok, hnd, hc =>
    fields_step name f g (.struct n fts) v rest fs hok hnd hc
      (fun x tag h1 h2 h3 => value_round_trip (.struct n fts) x tag h1 h2 h3)
      (fields_round_trip rest name fs)
end

/-! ## Theorems: decoding inverts encoding -/

theorem unmarshal_marshal (ty : Ty) (R : Value) (T : Nat) (raw : Buf)
    (hs : ty.schemaOk = true) (hl : ty.isList = false) (hR : canon ty false R = true)
    (hT : T < 2 ^ 64) (hT0 : T ≠ 0) (hlen : raw.length < 2 ^ 64)
    (hm : Marshal R T = .ret raw none) : Unmarshal raw ty T = some R := by
  obtain ⟨val, he, hd⟩ := value_round_trip ty R T hs hl hR
  simp only [Marshal, he, MarshalResult.ret.injEq, and_true] at hm
  have h1 := frame_length T val
  rw [hm] at h1
  have hv : val.length < 2 ^ 64 := by omega
  rw [frame_eq_entryBytes T val hv] at hm
  have hb : Before (NewReader raw) (entryBytes T val ++ []) := by
    rw [List.append_nil, hm]
    exact Before.new raw
  obtain ⟨hp, hr⟩ := peek_read_entry hT hT0 hv hb
  have hend : (({ Reader := [], t := 0, v := [] } : reader).Peek readTLV).1 = 0 := rfl
  simp only [Unmarshal, hp, if_true, hr, hend, hd hv]

/-- C1 (amended). Round trip: for every schema whose field tags are parseable, nonzero
and pairwise distinct within each record type and which has no list of lists
(`Ty.schemaOk`), every record `R` of it in which every Boolean that is not the value of
an optional field is true, every byte string that is not the value of an optional field
is non-nil, every list is nil or non-empty and every unsigned integer is below `2 ^ 64`
(`canon`), and every nonzero tag `T`: `Marshal` returns bytes and no error; when these
are fewer than `2 ^ 64` bytes, the decode walker of spec section 4.3 over the same schema
gives back `R`, and no other such record of the schema encodes to the same bytes. -/
theorem C1_round_trip (ty : Ty) (R : Value) (T : Nat) (hs : ty.schemaOk = true)
    (hl : ty.isList = false) (hR : canon ty false R = true) (hT : T < 2 ^ 64)
    (hT0 : T ≠ 0) :
    ∃ raw, Marshal R T = .ret raw none ∧
      (raw.length < 2 ^ 64 →
        Unmarshal raw ty T = some R ∧
        ∀ R1, canon ty false R1 = true → Marshal R1 T = .ret raw none → R1 = R) := by
  obtain ⟨val, he, _⟩ := value_round_trip ty R T hs hl hR
  have hm : Marshal R T = .ret (frame T val) none := by simp only [Marshal, he]
  refine ⟨frame T val, hm, fun hlen => ?_⟩
  have h1 := unmarshal_marshal ty R T _ hs hl hR hT hT0 hlen hm
  refine ⟨h1, fun R1 hR1 hm1 => ?_⟩
  have h2 := unmarshal_marshal ty R1 T _ hs hl hR1 hT hT0 hlen hm1
  rw [h1] at h2
  exact (Option.some.inj h2).symm

/-- Witness of C1: the record `sampleRecord`, with every kind of field, an omitted
optional flag and records nested two deep, is decoded back from its 65 bytes. -/
theorem C1_round_trip_witness :
    sampleTy.schemaOk = true ∧ sampleTy.isList = false ∧
    canon sampleTy false sampleRecord = true ∧
    ∃ raw, Marshal sampleRecord 1 = .ret raw none ∧
      (raw.length < 2 ^ 64 →
        Unmarshal raw sampleTy 1 = some sampleRecord ∧
        ∀ R1, canon sampleTy false R1 = true → Marshal R1 1 = .ret raw none →
          R1 = sampleRecord) :=
  ⟨by decide, by decide, by decide,
    C1_round_trip sampleTy sampleRecord 1 (by decide) (by decide) (by decide) (by decide)
      (by decide)⟩

/-- C1 fails as stated: the records `{B: false}` and `{B: true}` of the schema with the one
non-optional Boolean field `B` are different and encode to the same four bytes, which the
decode walker reads as `{B: true}`. -/
theorem C1_counterexample :
    Value.struct "s" [(⟨"B", "1"⟩, .bool false)] ≠ Value.struct "s" [(⟨"B", "1"⟩, .bool true)] ∧
    Marshal (.struct "s" [(⟨"B", "1"⟩, .bool false)]) 7 = .ret [7, 2, 1, 0] none ∧
    Marshal (.struct "s" [(⟨"B", "1"⟩, .bool true)]) 7 = .ret [7, 2, 1, 0] none ∧
    Unmarshal [7, 2, 1, 0] (.struct "s" [(⟨"B", "1"⟩, .bool)]) 7 =
      some (.struct "s" [(⟨"B", "1"⟩, .bool true)]) := by
  refine ⟨by simp, by decide, by decide, by rfl⟩

/-! ## Theorems: byte and text strings, and the top-level wrapper -/

theorem utf8Bytes_length (s : String) : (utf8Bytes s).length = s.utf8ByteSize := by
  have h : ∀ cs : List Char,
      (cs.flatMap String.utf8EncodeChar).length = String.utf8ByteSize.go cs := by
    intro cs
    induction cs with
    | nil => rfl
    | cons c cs ih =>
      simp only [List.flatMap_cons, List.length_append, String.length_utf8EncodeChar, ih,
        String.utf8ByteSize.go]
      omega
  cases s with
  | mk cs => simp only [utf8Bytes, List.length_map, h, String.utf8ByteSize]

theorem encode_string_entry (buf : Buf) (T : Nat) (bs : List Nat) (h : bs.length < 2 ^ 64) :
    encode buf (.string bs) T = .ok (buf ++ entryBytes T bs) := by
  simp only [encode, encodeString, entryBytes, Nat.mod_eq_of_lt h]
  rw [WriteBytes_append (WriteBytes buf T), WriteBytes_append buf T]
  simp

theorem encode_bytes_entry (buf : Buf) (T : Nat) (b : Option (List Nat))
    (h : (b.getD []).length < 2 ^ 64) :
    encode buf (.bytes b) T = .ok (buf ++ entryBytes T (b.getD [])) := by
  simp only [encode, encodeBytes, entryBytes, Nat.mod_eq_of_lt h]
  rw [WriteBytes_append (WriteBytes buf T), WriteBytes_append buf T]
  simp

/-- C11. Byte and text strings are one length-prefixed entry: for every tag `T`, byte
sequence `b` (nil or not) and text string `s`, `encode(b, T)` appends
`CompactWidth(T) ‖ CompactWidth(number of bytes of b) ‖ b`, with the tag once, and
`encode(s, T)` appends `CompactWidth(T) ‖ CompactWidth(number of UTF-8 bytes of s) ‖` the
UTF-8 bytes of `s`; the Length counts bytes, not characters (the one character of "é" has
Length 2). -/
theorem C11_strings_one_entry (buf : Buf) (T : Nat) (b : Option (List Nat)) (s : String)
    (hb : (b.getD []).length < 2 ^ 64) (hs : s.utf8ByteSize < 2 ^ 64) :
    encode buf (.bytes b) T =
      .ok (buf ++ WriteBytes [] T ++ WriteBytes [] (b.getD []).length ++ b.getD []) ∧
    encode buf (.string (utf8Bytes s)) T =
      .ok (buf ++ WriteBytes [] T ++ WriteBytes [] s.utf8ByteSize ++ utf8Bytes s) ∧
    (utf8Bytes s).length = s.utf8ByteSize ∧
    ("é".length = 1 ∧ utf8Bytes "é" = [195, 169] ∧
      encode [] (.string (utf8Bytes "é")) 5 = .ok [5, 2, 195, 169]) := by
  refine ⟨?_, ?_, utf8Bytes_length s, by decide, by decide, by decide⟩
  · rw [encode_bytes_entry buf T b hb]
    simp [entryBytes]
  · rw [encode_string_entry buf T _ (by rw [utf8Bytes_length]; exact hs), ← utf8Bytes_length s]
    simp [entryBytes]

/-- Witness of C11: the byte string `[1, 2, 3]` and the text "naïve" (5 characters, 6
bytes) at tag 300. -/
theorem C11_strings_one_entry_witness :
    ((some [1, 2, 3] : Option (List Nat)).getD []).length < 2 ^ 64 ∧
    "naïve".utf8ByteSize < 2 ^ 64 ∧
    encode [] (.bytes (some [1, 2, 3])) 300 =
      .ok ([] ++ WriteBytes [] 300 ++ WriteBytes [] ((some [1, 2, 3] : Option (List Nat)).getD
        []).length ++ (some [1, 2, 3] : Option (List Nat)).getD []) ∧
    encode [] (.string (utf8Bytes "naïve")) 300 =
      .ok ([] ++ WriteBytes [] 300 ++ WriteBytes [] "naïve".utf8ByteSize ++ utf8Bytes "naïve") :=
  ⟨by decide, by decide,
    (C11_strings_one_entry [] 300 (some [1, 2, 3]) "naïve" (by decide) (by decide)).1,
    (C11_strings_one_entry [] 300 (some [1, 2, 3]) "naïve" (by decide) (by decide)).2.1⟩

/-- C12 (amended). The wrapper at top level: for every record `R` whose emitted fields
encode to `parts`, and every tag `T`, `Marshal(R, T)` returns
`CompactWidth(T) ‖ CompactWidth(len(body)) ‖ body`, the body being the concatenation of
the emitted field entries: the same Type and Length wrapper, under the tag passed to
`Marshal`, that `encode` writes when the record is a nested field of tag `T`; the same
holds of a pointer to the record. -/
theorem C12_top_level_wrapper (name : String) (fields : List (FieldInfo × Value)) (T : Nat)
    (parts : List Buf)
    (hparts : List.Forall₂
      (fun p part => ∃ t, TypeOf name p.1 = .ok t ∧ encode [] p.2 t = .ok part)
      (emitted fields) parts)
    (hlen : parts.flatten.length < 2 ^ 64) :
    Marshal (.struct name fields) T =
      .ret (WriteBytes [] T ++ WriteBytes [] parts.flatten.length ++ parts.flatten) none ∧
    Marshal (.ptr (.struct name fields)) T =
      .ret (WriteBytes [] T ++ WriteBytes [] parts.flatten.length ++ parts.flatten) none ∧
    ∀ childBuf, encode childBuf (.struct name fields) T =
      .ok (childBuf ++ (WriteBytes [] T ++ WriteBytes [] parts.flatten.length ++ parts.flatten)) := by
  have h := (encodeFields_ok_iff name fields [] parts.flatten).2 ⟨parts, hparts, by simp⟩
  have he : ∀ b, encode b (.struct name fields) T =
      .ok (b ++ (WriteBytes [] T ++ WriteBytes [] parts.flatten.length ++ parts.flatten)) := by
    intro b
    simp only [encode, h, closeStruct]
    rw [Nat.mod_eq_of_lt hlen, WriteBytes_append (WriteBytes b T), WriteBytes_append b T]
    simp
  have hp : encode [] (.ptr (.struct name fields)) T = encode [] (.struct name fields) T := by
    simp only [encode]
  refine ⟨?_, ?_, he⟩
  · simp only [Marshal, he []]
    simp
  · simp only [Marshal, hp, he []]
    simp

/-- Witness of C12: a record of two emitted fields under the tag 7. -/
theorem C12_top_level_wrapper_witness :
    [[1, 1, 5], [2, 0]].flatten.length < 2 ^ 64 ∧
    Marshal (.struct "r" [(⟨"A", "1"⟩, .uint64 5), (⟨"B", "2"⟩, .bool true)]) 7 =
      .ret (WriteBytes [] 7 ++ WriteBytes [] [[1, 1, 5], [2, 0]].flatten.length ++
        [[1, 1, 5], [2, 0]].flatten) none :=
  ⟨by decide,
    (C12_top_level_wrapper "r" [(⟨"A", "1"⟩, .uint64 5), (⟨"B", "2"⟩, .bool true)] 7
      [[1, 1, 5], [2, 0]]
      (List.Forall₂.cons ⟨1, by decide, by decide⟩
        (List.Forall₂.cons ⟨2, by decide, by decide⟩ List.Forall₂.nil))
      (by decide)).1⟩

/-- C12 fails as stated: the bytes `Marshal` returns for a top-level record are not its
body `[1, 1, 5]`; the outer Type 7 and the Length 3 stand in front of it. -/
theorem C12_counterexample :
    encodeFields [] "s" [(⟨"A", "1"⟩, .uint64 5)] = .ok [1, 1, 5] ∧
    Marshal (.struct "s" [(⟨"A", "1"⟩, .uint64 5)]) 7 = .ret [7, 3, 1, 1, 5] none ∧
    Marshal (.struct "s" [(⟨"A", "1"⟩, .uint64 5)]) 7 ≠ .ret [1, 1, 5] none := by
  decide

/-! ## Theorems: the recursive zero test -/

mutual
theorem zero_iff_leaves : ∀ v : Value, zero v = true ↔ ∀ l ∈ leaves v, IsZeroLeaf l
  | .bool b => by cases b <;> simp [zero, leaves, IsZeroLeaf]
  | .uint64 n => by simp [zero, leaves, IsZeroLeaf]
  | .bytes d => by cases d <;> simp [zero, leaves, IsZeroLeaf]
  | .nilSlice => by simp [zero, leaves, IsZeroLeaf]
  | .slice xs => by simp [zero, leaves, IsZeroLeaf]
  | .string s => by simp [zero, leaves, IsZeroLeaf]
  | .nilPtr => by simp [zero, leaves, IsZeroLeaf]
  | .ptr e => by simp [zero, leaves, IsZeroLeaf]
  | .other k => by simp [zero, leaves, IsZeroLeaf]
  | .struct n fs => by
    simp only [zero, leaves]
    exact zeroFields_iff_leaves fs
theorem zeroFields_iff_leaves : ∀ fs : List (FieldInfo × Value),
    zeroFields fs = true ↔ ∀ l ∈ leavesOfFields fs, IsZeroLeaf l
  | [] => by simp [zeroFields, leavesOfFields]
  | (f, v) :: rest => by
    simp only [zeroFields, leavesOfFields, List.mem_append]
    have h1 := zero_iff_leaves v
    have h2 := zeroFields_iff_leaves rest
    constructor
    · intro h l hl
      cases hz : zero v
      · simp [hz] at h
      · simp only [hz, Bool.not_true, Bool.false_eq_true, if_false] at h
        rcases hl with hl | hl
        · exact h1.1 hz l hl
        · exact h2.1 h l hl
    · intro h
      have a1 : zero v = true := h1.2 (fun l hl => h l (Or.inl hl))
      have a2 : zeroFields rest = true := h2.2 (fun l hl => h l (Or.inr hl))
      simp [a1, a2]
end

/-- C13 (amended). Recursive zero test: for every nested record value of any depth,
`zero(record)` is true if and only if every leaf field reachable in it through nested
records is at the zero value of its kind (false, 0, nil byte slice, nil list, empty
string, nil pointer), so that an optional field holding a deeply nested all-zero record
is omitted from the encoding of its parent. -/
theorem C13_recursive_zero_test (name : String) (fields : List (FieldInfo × Value)) :
    (zero (.struct name fields) = true ↔
      ∀ l ∈ leaves (.struct name fields), IsZeroLeaf l) ∧
    (∀ (buf : Buf) (parent : String) (l1 l2 : List (FieldInfo × Value)) (f : FieldInfo)
      (T : Nat), optional f = true →
      (∀ l ∈ leaves (.struct name fields), IsZeroLeaf l) →
      encode buf (.struct parent (l1 ++ (f, .struct name fields) :: l2)) T =
        encode buf (.struct parent (l1 ++ l2)) T) ∧
    zero (.struct "a" [(⟨"B", "1"⟩, .struct "b" [(⟨"C", "1"⟩, .struct "c"
      [(⟨"X", "1"⟩, .uint64 0), (⟨"Y", "2"⟩, .string [])]), (⟨"F", "2"⟩, .bool false)])]) = true ∧
    zero (.struct "a" [(⟨"B", "1"⟩, .struct "b" [(⟨"C", "1"⟩, .struct "c"
      [(⟨"X", "1"⟩, .uint64 0), (⟨"Y", "2"⟩, .string [7])]), (⟨"F", "2"⟩, .bool false)])]) = false := by
  refine ⟨zero_iff_leaves _, ?_, by decide, by decide⟩
  intro buf parent l1 l2 f T hopt hz
  have hskip : (optional f && zero (.struct name fields)) = true := by
    rw [hopt, (zero_iff_leaves _).2 hz]; rfl
  simp only [encode, encodeFields_skip parent f _ hskip l2 l1 []]

/-- C13 fails as stated: the only leaf of this record is an empty byte sequence
(`[]byte{}`, not nil), yet `zero` is false, and as an optional field the record is
written to its parent. -/
theorem C13_counterexample :
    leaves (.struct "s" [(⟨"B", "2"⟩, .bytes (some []))]) = [.bytes (some [])] ∧
    zero (.struct "s" [(⟨"B", "2"⟩, .bytes (some []))]) = false ∧
    optional ⟨"N", "1,-"⟩ = true ∧
    Marshal (.struct "p" [(⟨"N", "1,-"⟩, .struct "s" [(⟨"B", "2"⟩, .bytes (some []))])]) 7 =
      .ret [7, 4, 1, 2, 2, 0] none ∧
    Marshal (.struct "p" []) 7 = .ret [7, 0] none := by
  refine ⟨rfl, by decide, by decide, by decide, by decide⟩

/-! ## Theorems: errors -/

theorem encodeElems_app (T : Nat) (xs2 : List Value) : ∀ (xs1 : List Value) (buf : Buf),
    encodeElems buf (xs1 ++ xs2) T =
      match encodeElems buf xs1 T with
      | .ok b => encodeElems b xs2 T
      | r => r
  | [], buf => by simp only [List.nil_append, encodeElems]
  | x :: xs1, buf => by
    simp only [List.cons_append, encodeElems]
    cases encode buf x T with
    | ok b => exact encodeElems_app T xs2 xs1 b
    | fail b e => rfl
    | panic => rfl

theorem encodeFields_app (name : String) (l2 : List (FieldInfo × Value)) :
    ∀ (l1 : List (FieldInfo × Value)) (cb : Buf),
    encodeFields cb name (l1 ++ l2) =
      match encodeFields cb name l1 with
      | .ok b => encodeFields b name l2
      | r => r
  | [], cb => by simp only [List.nil_append, encodeFields]
  | (f, v) :: l1, cb => by
    simp only [List.cons_append, encodeFields]
    split_ifs
    · exact encodeFields_app name l2 l1 cb
    · cases TypeOf name f with
      | error e => rfl
      | ok t =>
        simp only
        cases encode cb v t with
        | ok b => exact encodeFields_app name l2 l1 b
        | fail b e => rfl
        | panic => rfl

theorem failsWith_other (v : Value) (hk : v.kind ∉ handledKinds) :
    FailsWith v (.text ("invalid type: " ++ kindName v.kind)) ∧
    ∀ buf T, encode buf v T =
      .fail (WriteBytes buf T) (.text ("invalid type: " ++ kindName v.kind)) := by
  cases v <;> simp [Value.kind, handledKinds] at hk
  case other k =>
    exact ⟨⟨rfl, fun buf t => ⟨WriteBytes buf t, by simp only [encode, Value.kind]⟩⟩,
      fun buf T => by simp only [encode, Value.kind]⟩

theorem failsWith_marshal {w : Value} {e : Err} (h : FailsWith w e) (T : Nat) :
    Marshal w T = .ret [] (some e) := by
  obtain ⟨b, hb⟩ := h.2 [] T
  simp only [Marshal, hb]

theorem failsWith_elem {w : Value} {e : Err} (h : FailsWith w e) (xs1 xs2 : List Value)
    (hx : ∀ T, ∃ b1, encodeElems [] xs1 T = .ok b1) :
    FailsWith (.slice (xs1 ++ w :: xs2)) e := by
  refine ⟨rfl, fun buf t => ?_⟩
  obtain ⟨b1, h1⟩ := hx t
  obtain ⟨b, hb⟩ := h.2 (buf ++ b1) t
  refine ⟨b, ?_⟩
  simp only [encode]
  rw [encodeElems_app, encodeElems_append, h1]
  simp only [Res.prepend_ok, encodeElems, hb]

theorem failsWith_field {w : Value} {e : Err} (h : FailsWith w e) (name : String)
    (l1 l2 : List (FieldInfo × Value)) (f : FieldInfo) (t : Nat) (b1 : Buf)
    (h1 : encodeFields [] name l1 = .ok b1) (ht : TypeOf name f = .ok t) :
    FailsWith (.struct name (l1 ++ (f, w) :: l2)) e ∧
    FailsWith (.ptr (.struct name (l1 ++ (f, w) :: l2))) e := by
  have hskip : ¬ (optional f && zero w) = true := by simp [h.1]
  have hf : ∃ b, encodeFields [] name (l1 ++ (f, w) :: l2) = .fail b e := by
    obtain ⟨b, hb⟩ := h.2 b1 t
    exact ⟨b, by rw [encodeFields_app, h1]; simp only [encodeFields, if_neg hskip, ht, hb]⟩
  obtain ⟨b, hb⟩ := hf
  have hz : zero (.struct name (l1 ++ (f, w) :: l2)) = false := by
    cases hzz : zero (.struct name (l1 ++ (f, w) :: l2))
    · rfl
    · have := (zero_iff_isZeroValue _).1 hzz
      cases this with
      | struct _ _ hall =>
        have hw := (zero_iff_isZeroValue w).2 (hall (f, w) (by simp))
        rw [h.1] at hw
        cases hw
  exact ⟨⟨hz, fun buf t1 => ⟨WriteBytes buf t1, by simp only [encode, hb, closeStruct]⟩⟩,
    ⟨rfl, fun buf t1 => ⟨WriteBytes buf t1, by simp only [encode, hb, closeStruct]⟩⟩⟩

/-- C14 (amended). Unsupported kind is a named error: for every value whose kind has no
branch of its own in `encode` (a kind other than Bool, Uint64, Slice, String, Ptr,
Struct), `encode` writes the tag and returns the error "invalid type: " followed by the
name of the kind, and `Marshal` returns that error; and when a value `w` is never omitted
and always fails with an error `e` (`FailsWith`), so does a list that holds `w` after
elements that encode, and a record (or pointer to it) that holds `w` in a field with a
parseable tag after fields that encode, so that `Marshal` returns `e` at any depth. -/
theorem C14_unsupported_kind_error (v : Value) (hk : v.kind ∉ handledKinds) :
    (∀ buf T, encode buf v T =
      .fail (WriteBytes buf T) (.text ("invalid type: " ++ kindName v.kind))) ∧
    (∀ T, Marshal v T = .ret [] (some (.text ("invalid type: " ++ kindName v.kind)))) ∧
    FailsWith v (.text ("invalid type: " ++ kindName v.kind)) ∧
    (∀ (w : Value) (e : Err), FailsWith w e →
      (∀ T, Marshal w T = .ret [] (some e)) ∧
      (∀ xs1 xs2 : List Value, (∀ T, ∃ b1, encodeElems [] xs1 T = .ok b1) →
        FailsWith (.slice (xs1 ++ w :: xs2)) e) ∧
      (∀ (name : String) (l1 l2 : List (FieldInfo × Value)) (f : FieldInfo) (t : Nat)
        (b1 : Buf), encodeFields [] name l1 = .ok b1 → TypeOf name f = .ok t →
        FailsWith (.struct name (l1 ++ (f, w) :: l2)) e ∧
        FailsWith (.ptr (.struct name (l1 ++ (f, w) :: l2))) e)) := by
  obtain ⟨h1, h2⟩ := failsWith_other v hk
  exact ⟨h2, fun T => failsWith_marshal h1 T, h1, fun w e hw =>
    ⟨fun T => failsWith_marshal hw T, fun xs1 xs2 hx => failsWith_elem hw xs1 xs2 hx,
      fun name l1 l2 f t b1 hb ht => failsWith_field hw name l1 l2 f t b1 hb ht⟩⟩

/-- Witness of C14: a value of kind `Map`, alone and as the second field of a record. -/
theorem C14_unsupported_kind_error_witness :
    (Value.other .Map).kind ∉ handledKinds ∧
    Marshal (.other .Map) 3 = .ret [] (some (.text "invalid type: map")) ∧
    Marshal (.struct "r" ([(⟨"A", "1"⟩, .uint64 5)] ++ (⟨"M", "2"⟩, .other .Map) :: [])) 3 =
      .ret [] (some (.text ("invalid type: " ++ kindName (Value.other .Map).kind))) :=
  ⟨by decide, by decide,
    ((C14_unsupported_kind_error (.other .Map) (by decide)).2.2.2
      (.struct "r" ([(⟨"A", "1"⟩, .uint64 5)] ++ (⟨"M", "2"⟩, .other .Map) :: []))
      (.text ("invalid type: " ++ kindName (Value.other .Map).kind))
      (((C14_unsupported_kind_error (.other .Map) (by decide)).2.2.2 (.other .Map) _
        (C14_unsupported_kind_error (.other .Map) (by decide)).2.2.1).2.2
        "r" [(⟨"A", "1"⟩, .uint64 5)] [] ⟨"M", "2"⟩ 2 [1, 1, 5] (by decide) (by decide)).1).1 3⟩

/-- C14 fails as stated: the record of the test holds a value of kind `Uint8` in its
field `unexported`, and `Marshal` returns the error of the missing tag, not the error
that names the kind; and a nil pointer makes `Marshal` panic. -/
theorem C14_counterexample :
    (Value.other .Uint8).kind ∉ handledKinds ∧
    Marshal testV1 1 = .ret [] (some (.text "type not found: test unexported")) ∧
    Marshal testV1 1 ≠ .ret [] (some (.text "invalid type: uint8")) ∧
    Marshal .nilPtr 1 = .panic := by
  decide

theorem encodeElems_uint64 (T : Nat) : ∀ (xs : List Nat) (buf : Buf),
    ∃ b, encodeElems buf (xs.map Value.uint64) T = .ok b
  | [], buf => ⟨buf, rfl⟩
  | x :: xs, buf => by
    simp only [List.map_cons, encodeElems, encode]
    exact encodeElems_uint64 T xs _

/-- C15 (the code). The test's record type cannot be marshalled: for every value of the
fields `Num`, `String`, `Byte`, `Bool` and every outer tag, `Marshal` of the record, or
of a pointer to it, returns the error "type not found: test unexported" and no bytes; so
it does for the value `v1` of the test under the tag 1. -/
theorem C15_test_record_marshal_fails (num : Option (List Nat)) (str : List Nat)
    (byte : Option (List Nat)) (flag : Bool) (T : Nat) :
    Marshal (testValue num str byte flag) T =
      .ret [] (some (.text "type not found: test unexported")) ∧
    Marshal (.ptr (testValue num str byte flag)) T =
      .ret [] (some (.text "type not found: test unexported")) ∧
    Marshal testV1 1 = .ret [] (some (.text "type not found: test unexported")) := by
  have t1 : TypeOf "test" ⟨"Num", "255"⟩ = .ok 255 := by decide
  have t2 : TypeOf "test" ⟨"String", "65535"⟩ = .ok 65535 := by decide
  have t3 : TypeOf "test" ⟨"Byte", "4294967295"⟩ = .ok 4294967295 := by decide
  have t4 : TypeOf "test" ⟨"Bool", "18446744073709551615"⟩ = .ok 18446744073709551615 := by
    decide
  have t5 : TypeOf "test" ⟨"unexported", ""⟩ =
      .error (.text "type not found: test unexported") := by decide
  have o1 : optional ⟨"Num", "255"⟩ = false := by decide
  have o2 : optional ⟨"String", "65535"⟩ = false := by decide
  have o3 : optional ⟨"Byte", "4294967295"⟩ = false := by decide
  have o4 : optional ⟨"Bool", "18446744073709551615"⟩ = false := by decide
  have o5 : optional ⟨"unexported", ""⟩ = false := by decide
  have hn : ∃ b, encode [] (uint64Slice num) 255 = .ok b := by
    cases num with
    | none => exact ⟨[], rfl⟩
    | some xs =>
      simp only [uint64Slice, encode]
      exact encodeElems_uint64 255 xs []
  obtain ⟨b, hb⟩ := hn
  have hf : ∃ cb, encodeFields [] "test" [
      (⟨"Num", "255"⟩, uint64Slice num),
      (⟨"String", "65535"⟩, .string str),
      (⟨"Byte", "4294967295"⟩, .bytes byte),
      (⟨"Bool", "18446744073709551615"⟩, .bool flag),
      (⟨"unexported", ""⟩, .other .Uint8)] =
        .fail cb (.text "type not found: test unexported") := by
    simp only [encodeFields, o1, o2, o3, o4, o5, t1, t2, t3, t4, t5, hb, encode,
      Bool.false_and, Bool.false_eq_true, if_false]
    exact ⟨_, rfl⟩
  obtain ⟨cb, hcb⟩ := hf
  refine ⟨?_, ?_, by decide⟩
  · simp only [Marshal, testValue, encode, hcb, closeStruct]
  · simp only [Marshal, testValue, encode, hcb, closeStruct]

/-! ## Theorems: the lookahead of the reader -/

theorem readTLV_none (input : Buf) (h : (readTLV input).1 = none) : readTLV input = (none, []) := by
  simp only [readTLV] at h ⊢
  cases h1 : readCompactWidth input with
  | none => rfl
  | some p =>
    obtain ⟨t, r1⟩ := p
    rw [h1] at h
    simp only at h ⊢
    cases h2 : readCompactWidth r1 with
    | none => rfl
    | some q =>
      obtain ⟨len, r2⟩ := q
      rw [h2] at h
      simp only at h ⊢
      split_ifs at h ⊢ with h3
      rfl

theorem peek_cached (rd : Buf → Option (Nat × Buf) × Buf) (r : reader) (h : r.t ≠ 0) :
    r.Peek rd = (r.t, r) := by
  simp only [reader.Peek, if_neg h]

theorem peek_result (rd : Buf → Option (Nat × Buf) × Buf) (r : reader) :
    (r.Peek rd).2.t = (r.Peek rd).1 := by
  by_cases h0 : r.t = 0
  · simp only [reader.Peek, if_pos h0]
    cases hrd : rd r.Reader with
    | mk res rest =>
      cases res with
      | none => rfl
      | some p => rfl
  · rw [peek_cached rd r h0]

/-- C16 (amended). Reader lookahead idempotence: for every reader state and every
underlying input, whatever the entry parser, when a `Peek()` returns a tag other than 0,
a second `Peek()` with no `Read()` in between returns the same tag without calling the
parser, so it consumes nothing from the underlying stream and leaves the reader state
unchanged; and when the parse of `readTLV` fails (end of stream included), the second
`Peek()` returns 0 again and leaves the state of the first. -/
theorem C16_peek_idempotent (rd : Buf → Option (Nat × Buf) × Buf) (r : reader)
    (h : (r.Peek rd).1 ≠ 0) :
    (r.Peek rd).2.Peek rd = ((r.Peek rd).1, (r.Peek rd).2) ∧
    (∀ rd2 : Buf → Option (Nat × Buf) × Buf,
      (r.Peek rd).2.Peek rd2 = ((r.Peek rd).1, (r.Peek rd).2)) ∧
    (∀ input : Buf, (readTLV input).1 = none →
      ((NewReader input).Peek readTLV).2.Peek readTLV =
        (0, ((NewReader input).Peek readTLV).2)) := by
  have h1 := peek_result rd r
  have h2 : ∀ rd2 : Buf → Option (Nat × Buf) × Buf,
      (r.Peek rd).2.Peek rd2 = ((r.Peek rd).1, (r.Peek rd).2) := by
    intro rd2
    rw [peek_cached rd2 _ (by rw [h1]; exact h), h1]
  refine ⟨h2 rd, h2, ?_⟩
  intro input hn
  have e := readTLV_none input hn
  simp only [reader.Peek, NewReader, if_true, e, readTLV_nil]

/-- Witness of C16: two entries with the tags 9 and 7. -/
theorem C16_peek_idempotent_witness :
    ((NewReader [9, 1, 5, 7, 0]).Peek readTLV).1 ≠ 0 ∧
    ((NewReader [9, 1, 5, 7, 0]).Peek readTLV).2.Peek readTLV =
      (((NewReader [9, 1, 5, 7, 0]).Peek readTLV).1,
        ((NewReader [9, 1, 5, 7, 0]).Peek readTLV).2) :=
  ⟨by decide, (C16_peek_idempotent readTLV (NewReader [9, 1, 5, 7, 0]) (by decide)).1⟩

/-- C16 fails as stated: before an entry of tag 0 followed by an entry of tag 9, the first
`Peek()` returns 0 and the second returns 9, having read two more bytes of the stream and
replaced the cached entry. -/
theorem C16_counterexample :
    readTLV [0, 1, 5, 9, 0] = (some (0, [5]), [9, 0]) ∧
    (NewReader [0, 1, 5, 9, 0]).Peek readTLV = (0, { Reader := [9, 0], t := 0, v := [5] }) ∧
    ({ Reader := [9, 0], t := 0, v := [5] } : reader).Peek readTLV =
      (9, { Reader := [], t := 9, v := [] }) := by
  decide

/-- C17 (amended). End-of-stream signal: with nothing cached, `Peek()` returns 0 when
there is no next entry (end of stream, or the parse of the next entry failed) and the tag
of the next entry when it is well formed; so the result at the end of the stream differs
from the result on every stream whose next entry is well formed and has a tag other
than 0. -/
theorem C17_end_of_stream_signal (rd : Buf → Option (Nat × Buf) × Buf) (r : reader)
    (hr : r.t = 0) :
    ((rd r.Reader).1 = none → (r.Peek rd).1 = 0) ∧
    (∀ t v, (rd r.Reader).1 = some (t, v) → (r.Peek rd).1 = t) ∧
    ((NewReader []).Peek readTLV).1 = 0 ∧
    (∀ (t : Nat) (v s : Buf), t < 2 ^ 64 → v.length < 2 ^ 64 → t ≠ 0 →
      ((NewReader (entryBytes t v ++ s)).Peek readTLV).1 = t ∧
      ((NewReader (entryBytes t v ++ s)).Peek readTLV).1 ≠
        ((NewReader []).Peek readTLV).1) := by
  refine ⟨?_, ?_, rfl, ?_⟩
  · intro hn
    cases hrd : rd r.Reader with
    | mk res rest =>
      rw [hrd] at hn
      simp only at hn
      subst hn
      simp only [reader.Peek, if_pos hr, hrd, hr, if_true]
  · intro t v hs
    cases hrd : rd r.Reader with
    | mk res rest =>
      rw [hrd] at hs
      simp only at hs
      subst hs
      simp only [reader.Peek, if_pos hr, hrd]
  · intro t v s ht hv ht0
    have e : ((NewReader (entryBytes t v ++ s)).Peek readTLV).1 = t := by
      simp only [reader.Peek, NewReader, if_true, readTLV_entry t v s ht hv]
    refine ⟨e, ?_⟩
    rw [e]
    exact ht0

/-- Witness of C17: a fresh reader before an entry of tag 9 and before a truncated
entry. -/
theorem C17_end_of_stream_signal_witness :
    (NewReader [9, 1, 5]).t = 0 ∧
    ((NewReader [9, 1, 5]).Peek readTLV).1 = 9 ∧
    (NewReader [9, 4, 5]).t = 0 ∧
    ((NewReader [9, 4, 5]).Peek readTLV).1 = 0 :=
  ⟨rfl, (C17_end_of_stream_signal readTLV (NewReader [9, 1, 5]) rfl).2.1 9 [5] (by decide),
    rfl, (C17_end_of_stream_signal readTLV (NewReader [9, 4, 5]) rfl).1 (by decide)⟩

/-- C17 fails as stated: before the well-formed entry of tag 0 and Value `[5]`, `Peek()`
returns 0, the very result it returns at the end of the stream. -/
theorem C17_counterexample :
    [0, 1, 5] = entryBytes 0 [5] ∧
    readTLV [0, 1, 5] = (some (0, [5]), []) ∧
    ((NewReader [0, 1, 5]).Peek readTLV).1 = 0 ∧
    ((NewReader []).Peek readTLV).1 = 0 ∧
    ((NewReader [0, 1, 5]).Peek readTLV).1 = ((NewReader []).Peek readTLV).1 := by
  decide

/-- C18 (amended). `Peek()` does not lose or duplicate entries: for every reader with an
empty cache and every underlying input whose next entry has a tag other than 0, `Peek()`
returns that tag and a following `Read()` returns, without calling the parser again, the
same (Type, Value) pair and leaves the same remaining input and the same empty cache as
a single `Read()` without the `Peek()`; and when the parse of `readTLV` fails, `Read()`
reports the failure after a `Peek()` as it does without. -/
theorem C18_peek_then_read (rd : Buf → Option (Nat × Buf) × Buf) (r : reader) (t : Nat)
    (v rest : Buf) (hr : r.t = 0) (hv : r.v = []) (hp : rd r.Reader = (some (t, v), rest))
    (ht : t ≠ 0) :
    (r.Peek rd).1 = t ∧
    r.Read rd = (some (t, v), { Reader := rest, t := 0, v := [] }) ∧
    (∀ rd2 : Buf → Option (Nat × Buf) × Buf, (r.Peek rd).2.Read rd2 = r.Read rd) ∧
    (∀ input : Buf, (readTLV input).1 = none →
      ((NewReader input).Peek readTLV).2.Read readTLV = (NewReader input).Read readTLV) := by
  have h1 : r.Peek rd = (t, { Reader := rest, t := t, v := v }) := by
    simp only [reader.Peek, if_pos hr, hp]
  have h2 : r.Read rd = (some (t, v), { Reader := rest, t := 0, v := [] }) := by
    simp only [reader.Read, if_pos hr, hp, hr, hv, if_true]
  refine ⟨by rw [h1], h2, ?_, ?_⟩
  · intro rd2
    rw [h1, h2]
    simp only [reader.Read, if_neg ht]
  · intro input hn
    have e := readTLV_none input hn
    simp only [reader.Peek, reader.Read, NewReader, if_true, e, readTLV_nil]

/-- Witness of C18: a fresh reader before the entries of tags 9 and 7. -/
theorem C18_peek_then_read_witness :
    (NewReader [9, 1, 5, 7, 0]).t = 0 ∧ (NewReader [9, 1, 5, 7, 0]).v = [] ∧
    readTLV (NewReader [9, 1, 5, 7, 0]).Reader = (some (9, [5]), [7, 0]) ∧
    ((NewReader [9, 1, 5, 7, 0]).Peek readTLV).2.Read readTLV =
      (NewReader [9, 1, 5, 7, 0]).Read readTLV :=
  ⟨rfl, rfl, by decide,
    (C18_peek_then_read readTLV (NewReader [9, 1, 5, 7, 0]) 9 [5] [7, 0] rfl rfl (by decide)
      (by decide)).2.2.1 readTLV⟩

/-- C18 fails as stated: before an entry of tag 0 followed by an entry of tag 9, a single
`Read()` returns the entry of tag 0, but `Peek()` and then `Read()` return the entry of
tag 9: the entry of tag 0 is lost and its Value stays in the cache. -/
theorem C18_counterexample :
    (NewReader [0, 1, 5, 9, 0]).Read readTLV =
      (some (0, [5]), { Reader := [9, 0], t := 0, v := [] }) ∧
    ((NewReader [0, 1, 5, 9, 0]).Peek readTLV).1 = 0 ∧
    ((NewReader [0, 1, 5, 9, 0]).Peek readTLV).2.Read readTLV =
      (some (9, []), { Reader := [], t := 0, v := [5] }) := by
  decide

/-! ## Theorems: the outcome of Marshal, and pointers to records -/

/-- C19. `Marshal` is all-or-nothing: whenever `Marshal` returns an error, at any nesting
depth, the byte slice it returns is empty (nil), whatever `encode` had written to the
buffers before (for the record shown, the outer tag in `buf` and the first field in
`childBuf`); and whenever it returns no error the slice is all that `encode` wrote, a
sequence of complete wire entries. -/
theorem C19_marshal_all_or_nothing (i : Value) (T : Nat) :
    (∀ raw e, Marshal i T = .ret raw (some e) →
      raw = [] ∧ ∃ written, encode [] i T = .fail written e) ∧
    (∀ raw, Marshal i T = .ret raw none ↔ encode [] i T = .ok raw) ∧
    (∀ raw, Marshal i T = .ret raw none → T < 2 ^ 64 → raw.length < 2 ^ 64 →
      ∃ es, Entries raw es) ∧
    (encodeFields [] "r" [(⟨"A", "1"⟩, .uint64 5), (⟨"B", ""⟩, .bool true)] =
        .fail [1, 1, 5] (.text "type not found: r B") ∧
      encode [] (.struct "r" [(⟨"A", "1"⟩, .uint64 5), (⟨"B", ""⟩, .bool true)]) 7 =
        .fail [7] (.text "type not found: r B") ∧
      Marshal (.struct "r" [(⟨"A", "1"⟩, .uint64 5), (⟨"B", ""⟩, .bool true)]) 7 =
        .ret [] (some (.text "type not found: r B")) ∧
      Marshal (.struct "p" [(⟨"N", "3"⟩,
          .struct "r" [(⟨"A", "1"⟩, .uint64 5), (⟨"B", "x"⟩, .bool true)])]) 7 =
        .ret [] (some (.numSyntaxError "x"))) := by
  refine ⟨?_, ?_, ?_, by decide, by decide, by decide, by decide⟩
  · intro raw e h
    simp only [Marshal] at h
    cases hr : encode [] i T with
    | ok b => rw [hr] at h; simp at h
    | fail b e1 =>
      rw [hr] at h
      simp only [MarshalResult.ret.injEq, Option.some.injEq] at h
      exact ⟨h.1.symm, b, by rw [h.2]⟩
    | panic => rw [hr] at h; cases h
  · intro raw
    simp only [Marshal]
    cases hr : encode [] i T with
    | ok b => simp
    | fail b e1 => simp
    | panic => simp
  · intro raw h hT hlen
    simp only [Marshal] at h
    cases hr : encode [] i T with
    | ok b =>
      rw [hr] at h
      simp only [MarshalResult.ret.injEq, and_true] at h
      subst h
      obtain ⟨es, h1, _⟩ := encode_entries i T b hT hlen hr
      exact ⟨es, h1⟩
    | fail b e1 => rw [hr] at h; simp at h
    | panic => rw [hr] at h; cases h

/-- C20 (amended). Pointer transparency: `encode` treats a non-nil pointer to a record
exactly like the record it points to, and for every parent record, replacing the value of
a nested-record field that is not optional, or whose record is not all-zero, by a non-nil
pointer to the same record leaves the outcome of encoding the parent unchanged. -/
theorem C20_pointer_transparency (buf : Buf) (parent name : String)
    (l1 l2 fields : List (FieldInfo × Value)) (f : FieldInfo) (T : Nat)
    (h : optional f = false ∨ zero (.struct name fields) = false) :
    encode buf (.ptr (.struct name fields)) T = encode buf (.struct name fields) T ∧
    encode buf (.struct parent (l1 ++ (f, .ptr (.struct name fields)) :: l2)) T =
      encode buf (.struct parent (l1 ++ (f, .struct name fields) :: l2)) T ∧
    Marshal (.struct parent (l1 ++ (f, .ptr (.struct name fields)) :: l2)) T =
      Marshal (.struct parent (l1 ++ (f, .struct name fields) :: l2)) T := by
  have hp : ∀ b t, encode b (.ptr (.struct name fields)) t =
      encode b (.struct name fields) t := by
    intro b t
    simp only [encode]
  have hs1 : ¬ (optional f && zero (.ptr (.struct name fields))) = true := by
    simp [zero]
  have hs2 : ¬ (optional f && zero (.struct name fields)) = true := by
    rcases h with h | h <;> simp [h]
  have hf : ∀ cb, encodeFields cb parent (l1 ++ (f, .ptr (.struct name fields)) :: l2) =
      encodeFields cb parent (l1 ++ (f, .struct name fields) :: l2) := by
    intro cb
    rw [encodeFields_app, encodeFields_app]
    cases encodeFields cb parent l1 with
    | ok b => simp only [encodeFields, if_neg hs1, if_neg hs2, hp]
    | fail b e => rfl
    | panic => rfl
  have he : ∀ b, encode b (.struct parent (l1 ++ (f, .ptr (.struct name fields)) :: l2)) T =
      encode b (.struct parent (l1 ++ (f, .struct name fields) :: l2)) T := by
    intro b
    simp only [encode, hf]
  exact ⟨hp buf T, he buf, by simp only [Marshal, he []]⟩

/-- Witness of C20: an optional field holding a record that is not all-zero. -/
theorem C20_pointer_transparency_witness :
    (optional ⟨"N", "2,-"⟩ = false ∨ zero (.struct "n" [(⟨"X", "1"⟩, .uint64 4)]) = false) ∧
    Marshal (.struct "p" ([(⟨"A", "1"⟩, .bool true)] ++
        (⟨"N", "2,-"⟩, .ptr (.struct "n" [(⟨"X", "1"⟩, .uint64 4)])) :: [])) 7 =
      Marshal (.struct "p" ([(⟨"A", "1"⟩, .bool true)] ++
        (⟨"N", "2,-"⟩, .struct "n" [(⟨"X", "1"⟩, .uint64 4)]) :: [])) 7 :=
  ⟨by decide,
    (C20_pointer_transparency [] "p" "n" [(⟨"A", "1"⟩, .bool true)] []
      [(⟨"X", "1"⟩, .uint64 4)] ⟨"N", "2,-"⟩ 7 (by decide)).2.2⟩

/-- C20 fails as stated: an optional field holding an all-zero record is omitted, but the
same field holding a non-nil pointer to that record is written as an entry, since `zero`
of a non-nil pointer is false. -/
theorem C20_counterexample :
    optional ⟨"N", "1,-"⟩ = true ∧
    zero (.struct "n" [(⟨"X", "1"⟩, .uint64 0)]) = true ∧
    zero (.ptr (.struct "n" [(⟨"X", "1"⟩, .uint64 0)])) = false ∧
    Marshal (.struct "p" [(⟨"N", "1,-"⟩, .struct "n" [(⟨"X", "1"⟩, .uint64 0)])]) 7 =
      .ret [7, 0] none ∧
    Marshal (.struct "p" [(⟨"N", "1,-"⟩, .ptr (.struct "n" [(⟨"X", "1"⟩, .uint64 0)]))]) 7 =
      .ret [7, 5, 1, 3, 1, 1, 0] none := by
  decide

end Tlv
